import Mathlib

/-!
Verification of the Aurora Tabular Modeller core against its specification.

The source program (src/aurora_tabular_modeller/main.py) is a Qt viewer/editor
for a `.bim` JSON document.  This file gives a shallow embedding of its core:

* `JValue`            - the parsed JSON document (spec section 3: scalars are
                        string / integer / boolean / null; no floats occur in
                        the data model).
* `update_model_value` - the commit path (main.py lines 116-142), including the
                        exact Python semantics of `key.isdigit()`, `key in model`
                        (dict-key test, list membership, substring test), list
                        indexing, and the `int(value)` coercion with its
                        ValueError fallback.  Uncaught Python exceptions are
                        represented by `NavRes.exn`.
* `load_tree` / `add_sublevel` / `get_json_path` - the tree projection and the
                        label-walking path reconstruction (lines 73-114).
* `json_dump` / `json_load` - the persistence gateway: `json.dump(..., indent=4)`
                        with its default `ensure_ascii` escaping, and `json.load`
                        (lines 59-60, 148-149).
* `save_bim_file`     - the save handler over an abstract disk (lines 144-152).
-/

set_option maxHeartbeats 1600000
set_option maxRecDepth 8192

namespace Aurora

/-- A parsed JSON value, as produced by `json.load` for the documents of the
spec data model: scalar (string, integer, boolean, null), sequence, or mapping
with string keys in insertion order.  (The spec's data model, section 3, has no
floating point scalars, so none are modelled.) -/
inductive JValue where
  | null
  | bool (b : Bool)
  | int (n : Int)
  | str (s : String)
  | arr (items : List JValue)
  | obj (pairs : List (String × JValue))
deriving Repr, Inhabited

mutual
/-- Structural equality on values (Python `==` restricted to the comparisons
the program performs: a string compared with a non-string is unequal). -/
def beqJ : JValue → JValue → Bool
  | .null, .null => true
  | .bool a, .bool b => a == b
  | .int a, .int b => a == b
  | .str a, .str b => a == b
  | .arr a, .arr b => beqItems a b
  | .obj a, .obj b => beqPairs a b
  | _, _ => false

def beqItems : List JValue → List JValue → Bool
  | [], [] => true
  | x :: xs, y :: ys => beqJ x y && beqItems xs ys
  | _, _ => false

def beqPairs : List (String × JValue) → List (String × JValue) → Bool
  | [], [] => true
  | (k1, v1) :: xs, (k2, v2) :: ys => k1 == k2 && beqJ v1 v2 && beqPairs xs ys
  | _, _ => false
end

instance : BEq JValue := ⟨beqJ⟩

/-- First-match lookup in a mapping's pair list (Python `dict` lookup; keys of a
real `dict` are unique, so first-match agrees with it). -/
def dictGet (pairs : List (String × JValue)) (k : String) : Option JValue :=
  match pairs with
  | [] => none
  | (k2, v) :: rest => if k2 = k then some v else dictGet rest k

/-- `dict.get(k, d)` with a default. -/
def dictGetD (pairs : List (String × JValue)) (k : String) (d : JValue) : JValue :=
  (dictGet pairs k).getD d

/-- Python `k in d` for a dict. -/
def containsKey (pairs : List (String × JValue)) (k : String) : Bool :=
  (dictGet pairs k).isSome

/-- Replace the value of the first binding of `k` (Python `d[k] = v` for a
present key: the value changes, the position does not). -/
def mapPairsAt (pairs : List (String × JValue)) (k : String) (f : JValue → JValue) :
    List (String × JValue) :=
  match pairs with
  | [] => []
  | (k2, v) :: rest => if k2 = k then (k2, f v) :: rest else (k2, v) :: mapPairsAt rest k f

/-- In-place update of one list slot (Python `xs[i] = v`); out of range leaves
the list unchanged (callers only use it in range). -/
def listMapAt (xs : List JValue) (i : Nat) (f : JValue → JValue) : List JValue :=
  match xs, i with
  | [], _ => []
  | x :: rest, 0 => f x :: rest
  | x :: rest, n + 1 => x :: listMapAt rest n f

def isAsciiDigit (c : Char) : Bool := 48 ≤ c.toNat && c.toNat ≤ 57

/-- Python `str.isdigit()`, restricted to ASCII digits (the labels the program
splits come from JSON keys and values; no other Unicode digit classes occur). -/
def pyIsDigit (s : String) : Bool := !s.data.isEmpty && s.data.all isAsciiDigit

/-- Decimal value of a digit run (most significant first). -/
def decDigitsVal (cs : List Char) : Nat := cs.foldl (fun a c => a * 10 + (c.toNat - 48)) 0

/-- Python `int(key)` for a key that passed `isdigit()`: plain decimal, leading
zeros allowed. -/
def pyIndex (s : String) : Nat := decDigitsVal s.data

/-- Python whitespace stripped by `int(...)`. -/
def isPySpace (c : Char) : Bool :=
  c = ' ' || c = '\t' || c = '\n' || c.toNat = 13 || c.toNat = 11 || c.toNat = 12

def dropPySpaces : List Char → List Char
  | c :: rest => if isPySpace c then dropPySpaces rest else c :: rest
  | [] => []

def trimPySpaces (cs : List Char) : List Char :=
  (dropPySpaces (dropPySpaces cs).reverse).reverse

/-- After the first digit of an integer literal: digits, with single
underscores allowed only between digits (Python 3 `int()` grammar). -/
def digitTail : List Char → Bool
  | [] => true
  | c :: rest =>
    if isAsciiDigit c then digitTail rest
    else if c = '_' then
      match rest with
      | [] => false
      | d :: rest2 => isAsciiDigit d && digitTail rest2
    else false

/-- An unsigned integer-literal body: nonempty, starts with a digit, single
underscores only between digits. -/
def digitBody (cs : List Char) : Bool :=
  match cs with
  | [] => false
  | c :: rest => isAsciiDigit c && digitTail rest

def stripUnderscores (cs : List Char) : List Char := cs.filter (fun c => c ≠ '_')

/-- Python `int(value)` on the text of the editor: strip whitespace, optional
sign, decimal digits (with legal underscores); `none` is the `ValueError` case. -/
def pyIntParse (s : String) : Option Int :=
  match trimPySpaces s.data with
  | '+' :: rest =>
    if digitBody rest then some (decDigitsVal (stripUnderscores rest)) else none
  | '-' :: rest =>
    if digitBody rest then some (-(decDigitsVal (stripUnderscores rest) : Int)) else none
  | rest =>
    if digitBody rest then some (decDigitsVal (stripUnderscores rest)) else none

/-- The uncaught Python exceptions the commit path can raise. -/
inductive PyExn where
  | indexError
  | keyError
  | typeError
  | attributeError
deriving Repr, DecidableEq, Inhabited

/-- Outcome of `update_model_value` (main.py 116-142): `ok m2` means control
reached the label update on line 142 and the `model` subtree is now `m2`;
`pathMsg` is the handled branch of lines 125-127 (error dialog, early return);
`exn` is an uncaught Python exception escaping the slot. -/
inductive NavRes where
  | ok (newModel : JValue)
  | pathMsg
  | exn (e : PyExn)
deriving Repr

def NavRes.mapOk : NavRes → (JValue → JValue) → NavRes
  | .ok v, f => .ok (f v)
  | r, _ => r

/-- Needle occurs as an initial run of hay. -/
def leadEq : List Char → List Char → Bool
  | [], _ => true
  | _ :: _, [] => false
  | a :: r1, b :: r2 => a = b && leadEq r1 r2

/-- Needle occurs somewhere in hay (Python `needle in hay` for `str`). -/
def occursIn (needle hay : List Char) : Bool :=
  leadEq needle hay ||
    (match hay with
     | [] => false
     | _ :: t => occursIn needle t)

def pyStrContains (hay needle : String) : Bool := occursIn needle.data hay.data

/-- `isinstance(x, int)` - true for Python ints and bools (bool subclasses int). -/
def isIntInstance : JValue → Bool
  | .int _ => true
  | .bool _ => true
  | _ => false

/-- The committed value for a present final key (main.py 131-139): if the
current value is an int instance, try `int(value)` and fall back to the raw
text on `ValueError`; otherwise store the raw text. -/
def coerced (cur : JValue) (value : String) : JValue :=
  if isIntInstance cur then
    match pyIntParse value with
    | some n => .int n
    | none => .str value
  else .str value

/-- Lines 129-142: the final-segment write.  `last_key in model` is a dict-key
test on a dict, list membership on a list, a substring test on a string, and a
`TypeError` on other values; reading `model[last_key]` off a list or string
with a string subscript raises `TypeError` before any write. -/
def finalStep (model : JValue) (last_key value : String) : NavRes :=
  match model with
  | .obj pairs =>
    match dictGet pairs last_key with
    | some cur => .ok (.obj (mapPairsAt pairs last_key (fun _ => coerced cur value)))
    | none => .ok (.obj pairs)
  | .arr items =>
    if items.contains (.str last_key) then .exn .typeError else .ok (.arr items)
  | .str s => if pyStrContains s last_key then .exn .typeError else .ok (.str s)
  | _ => .exn .typeError

/-- Lines 119-127, one intermediate step per key, rebuilt functionally: a digit
key indexes a list (IndexError out of range), indexes a string (a fresh
one-character string, so nothing deeper can write back), raises KeyError on a
dict (JSON keys are strings) and TypeError on scalars; a non-digit key is
looked up in a dict, tested for membership in a list or substring in a string
(where a hit then raises TypeError on the subscript), and raises TypeError on
other scalars.  The `pathMsg` branch is the error dialog plus `return`. -/
def updateLoop (model : JValue) (pfx : List String) (last_key value : String) : NavRes :=
  match pfx with
  | [] => finalStep model last_key value
  | key :: rest =>
    if pyIsDigit key then
      match model with
      | .arr items =>
        match items[pyIndex key]? with
        | some child =>
          (updateLoop child rest last_key value).mapOk
            (fun c2 => .arr (listMapAt items (pyIndex key) (fun _ => c2)))
        | none => .exn .indexError
      | .str s =>
        match s.data[pyIndex key]? with
        | some ch => (updateLoop (.str (String.mk [ch])) rest last_key value).mapOk
            (fun _ => .str s)
        | none => .exn .indexError
      | .obj _ => .exn .keyError
      | _ => .exn .typeError
    else
      match model with
      | .obj pairs =>
        match dictGet pairs key with
        | some child =>
          (updateLoop child rest last_key value).mapOk
            (fun c2 => .obj (mapPairsAt pairs key (fun _ => c2)))
        | none => .pathMsg
      | .arr items => if items.contains (.str key) then .exn .typeError else .pathMsg
      | .str s => if pyStrContains s key then .exn .typeError else .pathMsg
      | _ => .exn .typeError

/-- `update_model_value` (main.py 116-142): start at `bim_data["model"]`
(KeyError when absent, TypeError when the root is not a mapping), walk
`path[:-1]`, then write the final segment.  An empty path raises IndexError at
`path[-1]`. -/
def update_model_value (bim_data : JValue) (path : List String) (value : String) : NavRes :=
  match bim_data with
  | .obj pairs =>
    match dictGet pairs "model" with
    | some model =>
      match path.getLast? with
      | some last_key => updateLoop model path.dropLast last_key value
      | none => .exn .indexError
    | none => .exn .keyError
  | _ => .exn .typeError

/-- The whole document after a commit: the mutation happens inside the object
graph reached from the root's `"model"` binding, so the root is the old root
with that binding's subtree replaced; on the handled error and on an exception
nothing has been written yet. -/
def docAfter (bim_data : JValue) (path : List String) (value : String) : JValue :=
  match bim_data, update_model_value bim_data path value with
  | .obj pairs, .ok m2 => .obj (mapPairsAt pairs "model" (fun _ => m2))
  | _, _ => bim_data

/-- Line 142: the selected node's label after a commit - rewritten only when
control reaches the end of the handler. -/
def labelAfter (oldLabel current_key value : String) (r : NavRes) : String :=
  match r with
  | .ok _ => current_key ++ ": " ++ value
  | _ => oldLabel

/-- Result of replaying a path read-only through the same traversal (the `get`
of the claims: the segment-by-segment lookup `update_model_value` performs). -/
inductive GetRes where
  | value (v : JValue)
  | missing
  | pathMsg
  | exn (e : PyExn)
deriving Repr

/-- Read-only version of `finalStep`: the value `model[last_key]` would yield. -/
def finalRead (model : JValue) (last_key : String) : GetRes :=
  match model with
  | .obj pairs =>
    match dictGet pairs last_key with
    | some cur => .value cur
    | none => .missing
  | .arr items => if items.contains (.str last_key) then .exn .typeError else .missing
  | .str s => if pyStrContains s last_key then .exn .typeError else .missing
  | _ => .exn .typeError

/-- Read-only version of `updateLoop`. -/
def readLoop (model : JValue) (pfx : List String) (last_key : String) : GetRes :=
  match pfx with
  | [] => finalRead model last_key
  | key :: rest =>
    if pyIsDigit key then
      match model with
      | .arr items =>
        match items[pyIndex key]? with
        | some child => readLoop child rest last_key
        | none => .exn .indexError
      | .str s =>
        match s.data[pyIndex key]? with
        | some ch => readLoop (.str (String.mk [ch])) rest last_key
        | none => .exn .indexError
      | .obj _ => .exn .keyError
      | _ => .exn .typeError
    else
      match model with
      | .obj pairs =>
        match dictGet pairs key with
        | some child => readLoop child rest last_key
        | none => .pathMsg
      | .arr items => if items.contains (.str key) then .exn .typeError else .pathMsg
      | .str s => if pyStrContains s key then .exn .typeError else .pathMsg
      | _ => .exn .typeError

/-- The claims' `get(d, path)`: the exact segment-by-segment lookup performed
by `update_model_value`, starting at `d["model"]`. -/
def getViaUpdatePath (bim_data : JValue) (path : List String) : GetRes :=
  match bim_data with
  | .obj pairs =>
    match dictGet pairs "model" with
    | some model =>
      match path.getLast? with
      | some last_key => readLoop model path.dropLast last_key
      | none => .exn .indexError
    | none => .exn .keyError
  | _ => .exn .typeError

/-! ## Tree projection (main.py 73-114) -/

/-- A single quote character, for Python `repr` of strings. -/
def sq : Char := Char.ofNat 39

/-- Opening and closing brace characters, for Python `repr` of dicts. -/
def obr : Char := Char.ofNat 123

def cbr : Char := Char.ofNat 125

mutual
/-- Python `repr(...)` of a value nested inside a container, as an f-string
renders it.  String quoting keeps the characters verbatim between single
quotes (the documents in the claims contain no quotes or control characters
inside strings, where CPython would switch quote style or escape). -/
def pyRepr : JValue → String
  | .null => "None"
  | .bool true => "True"
  | .bool false => "False"
  | .int n => toString n
  | .str s => String.mk (sq :: (s.data ++ [sq]))
  | .arr items => "[" ++ String.intercalate ", " (pyReprItems items) ++ "]"
  | .obj pairs =>
    String.mk [obr] ++ String.intercalate ", " (pyReprPairs pairs) ++ String.mk [cbr]

def pyReprItems : List JValue → List String
  | [] => []
  | x :: rest => pyRepr x :: pyReprItems rest

def pyReprPairs : List (String × JValue) → List String
  | [] => []
  | (k, v) :: rest =>
    (String.mk (sq :: (k.data ++ [sq])) ++ ": " ++ pyRepr v) :: pyReprPairs rest
end

/-- Python `str(...)` of a value, as an f-string like `f"{k}: {v}"` renders it:
strings appear bare, everything else as its repr. -/
def pyStr : JValue → String
  | .str s => s
  | v => pyRepr v

/-- A display node of the tree widget: a label and children. -/
inductive DNode where
  | mk (label : String) (children : List DNode)
deriving Repr, Inhabited

def DNode.label : DNode → String
  | .mk l _ => l

def DNode.children : DNode → List DNode
  | .mk _ cs => cs

/-- Lines 88-91, one collection element: an item node labelled by the
element's `name` value (`"Unnamed"` when absent), with one `"k: v"` leaf per
pair.  A non-string name would be rejected by the widget constructor
(`TypeError`), and a non-mapping element has no `.get` (`AttributeError`). -/
def itemNode (item : JValue) : Except PyExn DNode :=
  match item with
  | .obj pairs =>
    match (dictGet pairs "name").getD (.str "Unnamed") with
    | .str s =>
      .ok (.mk s (pairs.map (fun p => .mk (p.1 ++ ": " ++ pyStr p.2) [])))
    | _ => .error .typeError
  | _ => .error .attributeError

def itemNodes : List JValue → Except PyExn (List DNode)
  | [] => .ok []
  | x :: rest => do
    let n ← itemNode x
    let ns ← itemNodes rest
    .ok (n :: ns)

/-- `add_sublevel` (lines 86-91): a grouping node labelled by the collection
key, with one item node per element.  Iterating a non-list value either stops
at once (empty dict or empty string) or fails on the first element. -/
def add_sublevel (key : String) (items : JValue) : Except PyExn DNode :=
  match items with
  | .arr xs => (itemNodes xs).map (fun ns => .mk key ns)
  | .obj [] => .ok (.mk key [])
  | .obj _ => .error .attributeError
  | .str s => if s.data.isEmpty then .ok (.mk key []) else .error .attributeError
  | _ => .error .typeError

/-- `load_tree` (lines 73-84): the root node "Model" with the `name` and
`compatibilityLevel` leaves and the six collection sublevels, read with
`.get(..., default)` exactly as the source does. -/
def load_tree (bim_data : JValue) : Except PyExn DNode :=
  match bim_data with
  | .obj pairs =>
    let nameLeaf : DNode := .mk ("name: " ++ pyStr (dictGetD pairs "name" (.str ""))) []
    let compatLeaf : DNode :=
      .mk ("compatibilityLevel: " ++ pyStr (dictGetD pairs "compatibilityLevel" (.str ""))) []
    match dictGetD pairs "model" (.obj []) with
    | .obj mpairs => do
      let ds ← add_sublevel "dataSources" (dictGetD mpairs "dataSources" (.arr []))
      let tb ← add_sublevel "tables" (dictGetD mpairs "tables" (.arr []))
      let rel ← add_sublevel "relationships" (dictGetD mpairs "relationships" (.arr []))
      let per ← add_sublevel "perspectives" (dictGetD mpairs "perspectives" (.arr []))
      let an ← add_sublevel "annotations" (dictGetD mpairs "annotations" (.arr []))
      let tr ← add_sublevel "translations" (dictGetD mpairs "translations" (.arr []))
      .ok (.mk "Model" [nameLeaf, compatLeaf, ds, tb, rel, per, an, tr])
    | _ => .error .attributeError
  | _ => .error .attributeError

mutual
/-- All label chains of a subtree: each chain lists the labels from the first
node below the root down to one node (the root "Model" contributes none,
because `get_json_path` stops when the parent is gone). -/
def chainsFrom (pre : List String) : DNode → List (List String)
  | .mk l cs => (pre ++ [l]) :: chainsList (pre ++ [l]) cs

def chainsList (pre : List String) : List DNode → List (List String)
  | [] => []
  | c :: rest => chainsFrom pre c ++ chainsList pre rest
end

/-- Every display node of the built tree, as its label chain (root excluded). -/
def nodeChains (root : DNode) : List (List String) := chainsList [] root.children

/-- The characters before the first occurrence of the separator, i.e.
`s.split(sep)[0]` for a nonempty separator (the whole string when the
separator does not occur). -/
def beforeSep (sep : List Char) : List Char → List Char
  | [] => []
  | c :: rest => if leadEq sep (c :: rest) then [] else c :: beforeSep sep rest

/-- Line 112: the key part of one label, `item.text(0).split(": ")[0]`. -/
def labelKey (l : String) : String := String.mk (beforeSep [':', ' '] l.data)

/-- `get_json_path` (lines 109-114) applied to the label chain of a node: each
ancestor below the root contributes the key part of its label, root-nearest
first. -/
def get_json_path (chain : List String) : List String := chain.map labelKey

/-! ## Typed locations, for stating which single leaf a commit writes -/

/-- A typed path segment: a mapping key or a sequence index. -/
inductive TSeg where
  | key (k : String)
  | idx (i : Nat)
deriving Repr, DecidableEq

/-- Plain structural lookup along a typed path. -/
def getT : JValue → List TSeg → Option JValue
  | v, [] => some v
  | .obj pairs, .key k :: rest =>
    match dictGet pairs k with
    | some c => getT c rest
    | none => none
  | .arr items, .idx i :: rest =>
    match items[i]? with
    | some c => getT c rest
    | none => none
  | _, _ => none

/-- Replace the subtree at a typed path (no change where the path dead-ends). -/
def setT : JValue → List TSeg → JValue → JValue
  | _, [], x => x
  | .obj pairs, .key k :: rest, x => .obj (mapPairsAt pairs k (fun c => setT c rest x))
  | .arr items, .idx i :: rest, x => .arr (listMapAt items i (fun c => setT c rest x))
  | v, _ :: _, _ => v

/-- Is this value a scalar (a leaf of the document)? -/
def isScalar : JValue → Bool
  | .null => true
  | .bool _ => true
  | .int _ => true
  | .str _ => true
  | _ => false

/-- Replays the intermediate traversal of `update_model_value` on the branches
that can reach a write: a digit segment must index a list, a non-digit segment
must be a present dict key.  Returns the typed path taken and the container
reached.  (The remaining source branches - indexing into a string, or any
membership hit on a list or string - can never lead to a document write.) -/
def resolveT (v : JValue) (segs : List String) : Option (List TSeg × JValue) :=
  match segs with
  | [] => some ([], v)
  | key :: rest =>
    if pyIsDigit key then
      match v with
      | .arr items =>
        match items[pyIndex key]? with
        | some c => (resolveT c rest).map (fun p => (.idx (pyIndex key) :: p.1, p.2))
        | none => none
      | _ => none
    else
      match v with
      | .obj pairs =>
        match dictGet pairs key with
        | some c => (resolveT c rest).map (fun p => (.key key :: p.1, p.2))
        | none => none
      | _ => none

/-! ## Persistence gateway: `json.dump(..., indent=4)` and `json.load`
(main.py 59-60 and 148-149) -/

/-- The double-quote and backslash characters. -/
def qu : Char := Char.ofNat 34

def bsl : Char := Char.ofNat 92

/-- Lowercase hexadecimal digit. -/
def hexDigitChar (n : Nat) : Char :=
  if n < 10 then Char.ofNat (48 + n) else Char.ofNat (87 + n)

/-- Four lowercase hex digits, as in CPython's `\u%04x`. -/
def hex4Chars (n : Nat) : List Char :=
  [hexDigitChar (n / 4096 % 16), hexDigitChar (n / 256 % 16),
   hexDigitChar (n / 16 % 16), hexDigitChar (n % 16)]

/-- `json.dump` default (`ensure_ascii=True`) escaping of one character: the
named escapes, `\uXXXX` for the other control characters and for everything
outside printable ASCII, with a surrogate pair above the basic plane. -/
def escChar (c : Char) : List Char :=
  if c = qu then [bsl, qu]
  else if c = bsl then [bsl, bsl]
  else if c.toNat = 8 then [bsl, 'b']
  else if c.toNat = 12 then [bsl, 'f']
  else if c = '\n' then [bsl, 'n']
  else if c.toNat = 13 then [bsl, 'r']
  else if c = '\t' then [bsl, 't']
  else if c.toNat < 32 then bsl :: 'u' :: hex4Chars c.toNat
  else if c.toNat < 127 then [c]
  else if c.toNat < 65536 then bsl :: 'u' :: hex4Chars c.toNat
  else
    bsl :: 'u' :: hex4Chars (55296 + (c.toNat - 65536) / 1024) ++
      bsl :: 'u' :: hex4Chars (56320 + (c.toNat - 65536) % 1024)

def escString (s : String) : List Char := s.data.flatMap escChar

/-- Decimal digits of `n`, most significant first, onto `acc`.  The fuel only
bounds the division chain; `natDec` supplies more than enough. -/
def natDecAux : Nat → Nat → List Char → List Char
  | 0, _, acc => acc
  | fuel + 1, n, acc =>
    if n < 10 then Char.ofNat (48 + n) :: acc
    else natDecAux fuel (n / 10) (Char.ofNat (48 + n % 10) :: acc)

def natDec (n : Nat) : List Char := natDecAux (n + 1) n []

/-- Python `repr` of an int: optional minus sign, then decimal digits. -/
def intDec (n : Int) : List Char :=
  if n < 0 then '-' :: natDec n.natAbs else natDec n.toNat

/-- `indent=4` padding at nesting level `lv`. -/
def indentSp (lv : Nat) : List Char := List.replicate (4 * lv) ' '

mutual
/-- The exact character stream of `json.dump(v, file, indent=4)` at nesting
level `lv`: scalars inline, nonempty containers opened with a newline, items
at the deeper indent separated by `",\n"`, and the closer on its own line at
the outer indent. -/
def dumpChars : JValue → Nat → List Char
  | .null, _ => "null".data
  | .bool true, _ => "true".data
  | .bool false, _ => "false".data
  | .int n, _ => intDec n
  | .str s, _ => qu :: (escString s ++ [qu])
  | .arr [], _ => ['[', ']']
  | .arr (x :: xs), lv =>
    '[' :: '\n' :: (dumpItems (x :: xs) (lv + 1) ++ '\n' :: (indentSp lv ++ [']']))
  | .obj [], _ => [obr, cbr]
  | .obj (p :: ps), lv =>
    obr :: '\n' :: (dumpPairs (p :: ps) (lv + 1) ++ '\n' :: (indentSp lv ++ [cbr]))

def dumpItems : List JValue → Nat → List Char
  | [], _ => []
  | [x], lv => indentSp lv ++ dumpChars x lv
  | x :: y :: xs, lv =>
    indentSp lv ++ (dumpChars x lv ++ ',' :: '\n' :: dumpItems (y :: xs) lv)

def dumpPairs : List (String × JValue) → Nat → List Char
  | [], _ => []
  | [(k, v)], lv =>
    indentSp lv ++ (qu :: (escString k ++ qu :: ':' :: ' ' :: dumpChars v lv))
  | (k, v) :: q :: ps, lv =>
    indentSp lv ++ (qu :: (escString k ++ qu :: ':' :: ' ' :: dumpChars v lv))
      ++ ',' :: '\n' :: dumpPairs (q :: ps) lv
end

/-- `serialize`: the text `save_bim_file` writes (line 149). -/
def json_dump (d : JValue) : String := String.mk (dumpChars d 0)

/-- Parse failures.  `floatValue` reports a fraction or exponent: the spec's
data model (section 3) has no floating point scalars, so such input is outside
the embedded domain.  `fuelOut` cannot fire on `json_load`'s fuel choice. -/
inductive PErr where
  | fuelOut
  | badInput
  | floatValue
  | trailing
deriving Repr, DecidableEq

/-- JSON whitespace. -/
def isJsonWs (c : Char) : Bool := c = ' ' || c = '\t' || c = '\n' || c.toNat = 13

def dropWs : List Char → List Char
  | c :: rest => if isJsonWs c then dropWs rest else c :: rest
  | [] => []

def hexCharVal (c : Char) : Option Nat :=
  if 48 ≤ c.toNat && c.toNat ≤ 57 then some (c.toNat - 48)
  else if 97 ≤ c.toNat && c.toNat ≤ 102 then some (c.toNat - 87)
  else if 65 ≤ c.toNat && c.toNat ≤ 70 then some (c.toNat - 55)
  else none

/-- The single-character escapes accepted after a backslash. -/
def escDecode (c : Char) : Option Char :=
  if c = qu then some qu
  else if c = bsl then some bsl
  else if c = '/' then some '/'
  else if c = 'b' then some (Char.ofNat 8)
  else if c = 'f' then some (Char.ofNat 12)
  else if c = 'n' then some '\n'
  else if c = 'r' then some (Char.ofNat 13)
  else if c = 't' then some '\t'
  else none

/-- Four hex digits, as read after `\u`. -/
def readHex4 : List Char → Option (Nat × List Char)
  | h1 :: h2 :: h3 :: h4 :: rest =>
    match hexCharVal h1, hexCharVal h2, hexCharVal h3, hexCharVal h4 with
    | some a, some b, some c, some d => some (((a * 16 + b) * 16 + c) * 16 + d, rest)
    | _, _, _, _ => none
  | _ => none

/-- The string scanner after an opening quote (CPython `py_scanstring`,
strict): plain characters up to the closing quote, escapes, `\uXXXX` with
surrogate-pair combination (a lone surrogate, which `json_dump` never emits,
falls to the `Char.ofNat` fallback, as Lean characters cannot hold it), and
rejection of raw control characters.  The fuel only bounds recursion and
exceeds the input length at every call site. -/
def scanStr : Nat → List Char → List Char → Except PErr (String × List Char)
  | 0, _, _ => .error .fuelOut
  | _ + 1, _, [] => .error .badInput
  | fuel + 1, acc, c :: rest =>
    if c = qu then .ok (String.mk acc.reverse, rest)
    else if c = bsl then
      match rest with
      | 'u' :: rest1 =>
        match readHex4 rest1 with
        | none => .error .badInput
        | some (n, rest2) =>
          if 55296 ≤ n ∧ n < 56320 then
            match rest2 with
            | e1 :: e2 :: rest2a =>
              if e1 = bsl ∧ e2 = 'u' then
                match readHex4 rest2a with
                | some (n2, rest3) =>
                  if 56320 ≤ n2 ∧ n2 < 57344 then
                    scanStr fuel
                      (Char.ofNat (65536 + (n - 55296) * 1024 + (n2 - 56320)) :: acc) rest3
                  else scanStr fuel (Char.ofNat n :: acc) (e1 :: e2 :: rest2a)
                | none => scanStr fuel (Char.ofNat n :: acc) (e1 :: e2 :: rest2a)
              else scanStr fuel (Char.ofNat n :: acc) (e1 :: e2 :: rest2a)
            | short => scanStr fuel (Char.ofNat n :: acc) short
          else scanStr fuel (Char.ofNat n :: acc) rest2
      | e :: rest2 =>
        match escDecode e with
        | some d => scanStr fuel (d :: acc) rest2
        | none => .error .badInput
      | [] => .error .badInput
    else if c.toNat < 32 then .error .badInput
    else scanStr fuel (c :: acc) rest

/-- Longest initial digit run. -/
def spanDigits : List Char → List Char × List Char
  | [] => ([], [])
  | c :: rest =>
    if isAsciiDigit c then
      let p := spanDigits rest
      (c :: p.1, p.2)
    else ([], c :: rest)

/-- Does a fraction or exponent part start here? -/
def numTail : List Char → Bool
  | c :: _ => c = '.' || c = 'e' || c = 'E'
  | [] => false

/-- Scan an unsigned JSON integer.  The grammar is `0 | [1-9][0-9]*`: a
leading `0` matches alone (any following digit is left for the caller to
reject as a delimiter); a fraction or exponent would be a float, outside the
embedded data model. -/
def scanNat : List Char → Except PErr (Nat × List Char)
  | [] => .error .badInput
  | c :: rest =>
    if c = '0' then (if numTail rest then .error .floatValue else .ok (0, rest))
    else
      match spanDigits (c :: rest) with
      | ([], _) => .error .badInput
      | (ds, rest2) =>
        if numTail rest2 then .error .floatValue else .ok (decDigitsVal ds, rest2)

/-- Drop an exact literal from the front of the input (the keyword checks
`null` / `true` / `false` of the scanner). -/
def litRest : List Char → List Char → Option (List Char)
  | [], cs => some cs
  | _ :: _, [] => none
  | l :: ls, c :: cs => if c = l then litRest ls cs else none

/-- Python `dict` insertion: a present key keeps its position and takes the
new value, a new key appends. -/
def dictSet (pairs : List (String × JValue)) (k : String) (v : JValue) :
    List (String × JValue) :=
  if containsKey pairs k then mapPairsAt pairs k (fun _ => v) else pairs ++ [(k, v)]

/-- `dict(pairs)`: fold the scanned members through dict insertion. -/
def pyDict (ps : List (String × JValue)) : List (String × JValue) :=
  ps.foldl (fun acc p => dictSet acc p.1 p.2) []

mutual
/-- The value scanner (CPython `scan_once`), expecting its input to start at a
non-whitespace character; `fuel` only bounds recursion depth. -/
def parseVal : Nat → List Char → Except PErr (JValue × List Char)
  | 0, _ => .error .fuelOut
  | _ + 1, [] => .error .badInput
  | fuel + 1, c :: rest =>
    if c = qu then
      match scanStr (rest.length + 1) [] rest with
      | .ok (s, r) => .ok (.str s, r)
      | .error e => .error e
    else if c = '[' then
      match dropWs rest with
      | c2 :: r2 =>
        if c2 = ']' then .ok (.arr [], r2)
        else
          match parseItems fuel (c2 :: r2) with
          | .ok (xs, r3) => .ok (.arr xs, r3)
          | .error e => .error e
      | [] => .error .badInput
    else if c = obr then
      match dropWs rest with
      | c2 :: r2 =>
        if c2 = cbr then .ok (.obj [], r2)
        else
          match parseMembers fuel (c2 :: r2) with
          | .ok (ps, r3) => .ok (.obj (pyDict ps), r3)
          | .error e => .error e
      | [] => .error .badInput
    else if c = 'n' then
      match litRest ['u', 'l', 'l'] rest with
      | some r => .ok (.null, r)
      | none => .error .badInput
    else if c = 't' then
      match litRest ['r', 'u', 'e'] rest with
      | some r => .ok (.bool true, r)
      | none => .error .badInput
    else if c = 'f' then
      match litRest ['a', 'l', 's', 'e'] rest with
      | some r => .ok (.bool false, r)
      | none => .error .badInput
    else if c = '-' then
      match scanNat rest with
      | .ok (n, r) => .ok (.int (-(n : Int)), r)
      | .error e => .error e
    else if isAsciiDigit c then
      match scanNat (c :: rest) with
      | .ok (n, r) => .ok (.int (n : Int), r)
      | .error e => .error e
    else .error .badInput

/-- One-or-more comma-separated array items (the empty array is handled at the
bracket); expects its input to start at the first item. -/
def parseItems : Nat → List Char → Except PErr (List JValue × List Char)
  | 0, _ => .error .fuelOut
  | fuel + 1, cs =>
    match parseVal fuel cs with
    | .error e => .error e
    | .ok (v, r) =>
      match dropWs r with
      | ',' :: r2 =>
        match parseItems fuel (dropWs r2) with
        | .ok (xs, r3) => .ok (v :: xs, r3)
        | .error e => .error e
      | ']' :: r2 => .ok ([v], r2)
      | _ => .error .badInput

/-- One-or-more object members, as the raw scanned pair list; expects its
input to start at the key's opening quote. -/
def parseMembers : Nat → List Char →
    Except PErr (List (String × JValue) × List Char)
  | 0, _ => .error .fuelOut
  | fuel + 1, cs =>
    match cs with
    | c :: rest =>
      if c = qu then
        match scanStr (rest.length + 1) [] rest with
        | .error e => .error e
        | .ok (k, r1) =>
          match dropWs r1 with
          | ':' :: r2 =>
            match parseVal fuel (dropWs r2) with
            | .error e => .error e
            | .ok (v, r3) =>
              match dropWs r3 with
              | ',' :: r4 =>
                match parseMembers fuel (dropWs r4) with
                | .ok (ps, r5) => .ok ((k, v) :: ps, r5)
                | .error e => .error e
              | c5 :: r4 => if c5 = cbr then .ok ([(k, v)], r4) else .error .badInput
              | [] => .error .badInput
          | _ => .error .badInput
      else .error .badInput
    | [] => .error .badInput
end

/-- The `utf-8-sig` load path tolerates one leading byte-order mark. -/
def stripBom : List Char → List Char
  | c :: rest => if c.toNat = 65279 then rest else c :: rest
  | [] => []

/-- `parse`: `json.load` over the decoded text - skip leading whitespace, scan
one value, and reject trailing data.  The fuel exceeds any possible recursion
depth of the input. -/
def json_load (text : String) : Except PErr JValue :=
  let cs := stripBom text.data
  match parseVal (cs.length + 1) (dropWs cs) with
  | .error e => .error e
  | .ok (v, r) => if (dropWs r).isEmpty then .ok v else .error .trailing

/-! ## The save handler over an abstract disk (main.py 144-155) -/

/-- The message the save handler surfaces. -/
inductive SaveMsg where
  | saved
  | saveError
  | noPath
deriving Repr, DecidableEq

/-- The mutable state the handlers touch: the in-memory document, the stored
file path, and the content of the file at that path. -/
structure App where
  bim_data : JValue
  file_path : Option String
  disk : Option String
deriving Repr

/-- `save_bim_file` (lines 144-155): with a path, write `json.dump(bim_data,
file, indent=4)`; `writeOk = false` is an I/O failure, which reports an error
and leaves `bim_data` untouched (a failed attempt may leave partial content
`failContent` in the file - no atomic rename is used).  Without a path, only
an error is shown. -/
def save_bim_file (writeOk : Bool) (failContent : Option String) (s : App) :
    App × SaveMsg :=
  match s.file_path with
  | some _ =>
    if writeOk then ({ s with disk := some (json_dump s.bim_data) }, .saved)
    else ({ s with disk := failContent }, .saveError)
  | none => (s, .noPath)

/-- A committed edit, as it changes the app state. -/
def commitEdit (path : List String) (value : String) (s : App) : App :=
  { s with bim_data := docAfter s.bim_data path value }

/-- The `last_key in model` test of line 131 comes back false without raising:
the commit then skips the write and only refreshes the label. -/
def finalAbsent (c : JValue) (last_key : String) : Bool :=
  match c with
  | .obj pairs => !containsKey pairs last_key
  | .arr items => !items.contains (.str last_key)
  | .str s => !pyStrContains s last_key
  | _ => false

/-- The `key in model` test of line 123 comes back false without raising for
an intermediate segment: the handled `pathMsg` branch. -/
def stepAbsent (c : JValue) (key : String) : Bool :=
  !pyIsDigit key && finalAbsent c key

/-- Recursively: every mapping of the document has pairwise distinct keys
(part of the spec's Document invariant, section 3). -/
def distinctKeys : List String → Bool
  | [] => true
  | k :: ks => !ks.contains k && distinctKeys ks

mutual
def noDupKeys : JValue → Bool
  | .obj pairs => distinctKeys (pairs.map Prod.fst) && noDupPairs pairs
  | .arr items => noDupItems items
  | _ => true

def noDupItems : List JValue → Bool
  | [] => true
  | x :: rest => noDupKeys x && noDupItems rest

def noDupPairs : List (String × JValue) → Bool
  | [] => true
  | (_, v) :: rest => noDupKeys v && noDupPairs rest
end

/-! ## Concrete documents used by the claims -/

/-- The document of the C1 counterexample: one table, named `Customers`. -/
def docDemo : JValue :=
  .obj [("name", .str "Demo"), ("compatibilityLevel", .int 1200),
    ("model", .obj [("tables", .arr [.obj [("name", .str "Customers")]])])]

/-- The document of the C2 scenario: `model.tables[0].name == "Sales"`. -/
def docSales : JValue :=
  .obj [("name", .str "MyModel"), ("compatibilityLevel", .int 1500),
    ("model", .obj [("tables", .arr [.obj [("name", .str "Sales")]])])]

/-- The document of the C3 witness: `model.tables[0].rows == 42`. -/
def docRows : JValue :=
  .obj [("name", .str "W"), ("compatibilityLevel", .int 1400),
    ("model", .obj [("tables", .arr [.obj [("name", .str "T"), ("rows", .int 42)]])])]

/-- The document of the C5 counterexample: `model.dataSources` has a single
element, so index 5 is out of range. -/
def docSrc : JValue :=
  .obj [("name", .str "Src"), ("compatibilityLevel", .int 1000),
    ("model", .obj [("dataSources", .arr [.obj [("name", .str "DS1")]])])]

/-- The document of the C6 failing input: `model.tables` is empty, so index 0
is out of range. -/
def docNoRows : JValue :=
  .obj [("name", .str "Empty"), ("compatibilityLevel", .int 1100),
    ("model", .obj [("tables", .arr [])])]

/-- The document of the C9 witness: `model.tables[0].isHidden == true`. -/
def docFlag : JValue :=
  .obj [("name", .str "F"), ("compatibilityLevel", .int 1300),
    ("model", .obj [("tables", .arr [.obj [("name", .str "T2"),
      ("isHidden", .bool true)]])])]

/-- The root bindings of the C10 witness document. -/
def docPlain : JValue :=
  .obj [("name", .str "Root"), ("compatibilityLevel", .int 1600),
    ("model", .obj [("name", .str "InnerName"), ("tables", .arr [])])]

mutual
/-- Recursion fuel the parser needs for a value (each `parseVal`/`parseItems`/
`parseMembers` call burns one unit). -/
def fuelNeed : JValue → Nat
  | .arr (x :: xs) => 1 + fuelNeedItems (x :: xs)
  | .obj (p :: ps) => 1 + fuelNeedPairs (p :: ps)
  | _ => 1

def fuelNeedItems : List JValue → Nat
  | [] => 1
  | x :: xs => 1 + max (fuelNeed x) (fuelNeedItems xs)

def fuelNeedPairs : List (String × JValue) → Nat
  | [] => 1
  | (_, v) :: ps => 1 + max (fuelNeed v) (fuelNeedPairs ps)
end

/-- The characters of the second and later array items (separator, newline,
indent, item), as `dumpItems` emits them. -/
def itemsTail : List JValue → Nat → List Char
  | [], _ => []
  | y :: ys, lv => ',' :: '\n' :: (indentSp lv ++ (dumpChars y lv ++ itemsTail ys lv))

/-- The characters of the second and later object members. -/
def pairsTail : List (String × JValue) → Nat → List Char
  | [], _ => []
  | (k, v) :: ps, lv =>
    ',' :: '\n' :: (indentSp lv ++
      (qu :: (escString k ++ qu :: ':' :: ' ' :: (dumpChars v lv ++ pairsTail ps lv))))

/-! ## Lemmas: dictionaries, list slots, and typed locations -/

theorem dictGet_mapPairsAt_self (pairs : List (String × JValue)) (k : String)
    (f : JValue → JValue) (v : JValue) (h : dictGet pairs k = some v) :
    dictGet (mapPairsAt pairs k f) k = some (f v) := by
  induction pairs with
  | nil => simp [dictGet] at h
  | cons p rest ih =>
    obtain ⟨k2, w⟩ := p
    by_cases hk : k2 = k
    · subst hk
      simp [dictGet, mapPairsAt] at h ⊢
      exact congrArg f h
    · simp [dictGet, mapPairsAt, hk] at h ⊢
      exact ih h

theorem dictGet_mapPairsAt_ne (pairs : List (String × JValue)) (k k2 : String)
    (f : JValue → JValue) (hne : k2 ≠ k) :
    dictGet (mapPairsAt pairs k f) k2 = dictGet pairs k2 := by
  induction pairs with
  | nil => simp [mapPairsAt]
  | cons p rest ih =>
    obtain ⟨k3, w⟩ := p
    by_cases hk : k3 = k
    · subst hk
      have : ¬(k3 = k2) := fun h => hne (h ▸ rfl)
      simp [dictGet, mapPairsAt, this]
    · by_cases hk2 : k3 = k2
      · subst hk2
        simp [dictGet, mapPairsAt, hk, hne]
      · simp [dictGet, mapPairsAt, hk, hk2, ih]

theorem mapPairsAt_congr (pairs : List (String × JValue)) (k : String)
    (f g : JValue → JValue) (v : JValue) (h : dictGet pairs k = some v)
    (hfg : f v = g v) : mapPairsAt pairs k f = mapPairsAt pairs k g := by
  induction pairs with
  | nil => rfl
  | cons p rest ih =>
    obtain ⟨k2, w⟩ := p
    by_cases hk : k2 = k
    · subst hk
      simp [dictGet] at h
      simp [mapPairsAt, h ▸ hfg]
    · simp [dictGet, hk] at h
      simp [mapPairsAt, hk, ih h]

theorem mapPairsAt_same (pairs : List (String × JValue)) (k : String) (v : JValue)
    (h : dictGet pairs k = some v) : mapPairsAt pairs k (fun _ => v) = pairs := by
  induction pairs with
  | nil => rfl
  | cons p rest ih =>
    obtain ⟨k2, w⟩ := p
    by_cases hk : k2 = k
    · subst hk
      simp [dictGet] at h
      simp [mapPairsAt, h]
    · simp [dictGet, hk] at h
      simp [mapPairsAt, hk, ih h]

theorem get?_listMapAt_self (items : List JValue) (i : Nat) (f : JValue → JValue)
    (x : JValue) (h : items[i]? = some x) :
    (listMapAt items i f)[i]? = some (f x) := by
  induction items generalizing i with
  | nil => simp at h
  | cons y rest ih =>
    cases i with
    | zero => simp at h; simp [listMapAt, h]
    | succ n => simp at h; simpa [listMapAt] using ih n h

theorem get?_listMapAt_ne (items : List JValue) (i j : Nat) (f : JValue → JValue)
    (hne : j ≠ i) : (listMapAt items i f)[j]? = items[j]? := by
  induction items generalizing i j with
  | nil => simp [listMapAt]
  | cons y rest ih =>
    cases i with
    | zero =>
      cases j with
      | zero => exact absurd rfl hne
      | succ n => simp [listMapAt]
    | succ m =>
      cases j with
      | zero => simp [listMapAt]
      | succ n => simpa [listMapAt] using ih m n (fun h => hne (h ▸ rfl))

theorem listMapAt_congr (items : List JValue) (i : Nat) (f g : JValue → JValue)
    (x : JValue) (h : items[i]? = some x) (hfg : f x = g x) :
    listMapAt items i f = listMapAt items i g := by
  induction items generalizing i with
  | nil => rfl
  | cons y rest ih =>
    cases i with
    | zero => simp at h; simp [listMapAt, h ▸ hfg]
    | succ n => simp at h; simp [listMapAt, ih n h]

theorem listMapAt_same (items : List JValue) (i : Nat) (x : JValue)
    (h : items[i]? = some x) : listMapAt items i (fun _ => x) = items := by
  induction items generalizing i with
  | nil => rfl
  | cons y rest ih =>
    cases i with
    | zero => simp at h; simp [listMapAt, h]
    | succ n => simp at h; simp [listMapAt, ih n h]

theorem NavRes.mapOk_id (r : NavRes) : r.mapOk (fun v => v) = r := by
  cases r <;> rfl

theorem NavRes.mapOk_comp (r : NavRes) (f g : JValue → JValue) :
    (r.mapOk f).mapOk g = r.mapOk (fun v => g (f v)) := by
  cases r <;> rfl

theorem NavRes.mapOk_congr (r : NavRes) (f g : JValue → JValue)
    (h : ∀ v, f v = g v) : r.mapOk f = r.mapOk g := by
  cases r <;> simp [NavRes.mapOk, h]

theorem getT_nil (v : JValue) : getT v [] = some v := by cases v <;> rfl

theorem setT_nil (v x : JValue) : setT v [] x = x := by cases v <;> rfl

theorem updateLoop_nil (v : JValue) (last_key value : String) :
    updateLoop v [] last_key value = finalStep v last_key value := by
  cases v <;> rfl

theorem readLoop_nil (v : JValue) (last_key : String) :
    readLoop v [] last_key = finalRead v last_key := by
  cases v <;> rfl

/-- The typed path `resolveT` returns really leads to the container it returns. -/
theorem resolveT_getT : ∀ (segs : List String) (v : JValue) (tp : List TSeg) (c : JValue),
    resolveT v segs = some (tp, c) → getT v tp = some c
  | [], v, tp, c, h => by
    simp [resolveT] at h
    obtain ⟨rfl, rfl⟩ := h
    exact getT_nil v
  | key :: rest, v, tp, c, h => by
    by_cases hd : pyIsDigit key
    · cases v with
      | arr items =>
        cases hg : items[pyIndex key]? with
        | none => simp [resolveT, hd, hg] at h
        | some child =>
          cases hr : resolveT child rest with
          | none => simp [resolveT, hd, hg, hr] at h
          | some p =>
            obtain ⟨tp2, c2⟩ := p
            simp [resolveT, hd, hg, hr] at h
            obtain ⟨h1, h2⟩ := h
            subst h1
            subst h2
            simp only [getT, hg]
            exact resolveT_getT rest child tp2 c2 hr
      | null => simp [resolveT, hd] at h
      | bool b => simp [resolveT, hd] at h
      | int n => simp [resolveT, hd] at h
      | str s => simp [resolveT, hd] at h
      | obj pairs => simp [resolveT, hd] at h
    · cases v with
      | obj pairs =>
        cases hg : dictGet pairs key with
        | none => simp [resolveT, hd, hg] at h
        | some child =>
          cases hr : resolveT child rest with
          | none => simp [resolveT, hd, hg, hr] at h
          | some p =>
            obtain ⟨tp2, c2⟩ := p
            simp [resolveT, hd, hg, hr] at h
            obtain ⟨h1, h2⟩ := h
            subst h1
            subst h2
            simp only [getT, hg]
            exact resolveT_getT rest child tp2 c2 hr
      | null => simp [resolveT, hd] at h
      | bool b => simp [resolveT, hd] at h
      | int n => simp [resolveT, hd] at h
      | str s => simp [resolveT, hd] at h
      | arr items => simp [resolveT, hd] at h

/-- Walking a resolvable chain of intermediate segments, the commit loop acts
below the reached container and rebuilds the spine above it. -/
theorem updateLoop_append :
    ∀ (segs : List String) (v : JValue) (tp : List TSeg) (c : JValue)
      (sfx : List String) (last_key value : String),
    resolveT v segs = some (tp, c) →
    updateLoop v (segs ++ sfx) last_key value =
      (updateLoop c sfx last_key value).mapOk (fun c2 => setT v tp c2)
  | [], v, tp, c, sfx, last_key, value, h => by
    simp [resolveT] at h
    obtain ⟨rfl, rfl⟩ := h
    simp [setT_nil, NavRes.mapOk_id]
  | key :: rest, v, tp, c, sfx, last_key, value, h => by
    by_cases hd : pyIsDigit key
    · cases v with
      | arr items =>
        cases hg : items[pyIndex key]? with
        | none => simp [resolveT, hd, hg] at h
        | some child =>
          cases hr : resolveT child rest with
          | none => simp [resolveT, hd, hg, hr] at h
          | some p =>
            obtain ⟨tp2, c2⟩ := p
            simp [resolveT, hd, hg, hr] at h
            obtain ⟨h1, h2⟩ := h
            subst h1
            subst h2
            have ih := updateLoop_append rest child tp2 c2 sfx last_key value hr
            simp only [List.cons_append, updateLoop, hd, if_true, hg, List.append_eq]
            rw [ih, NavRes.mapOk_comp]
            simp only [setT]
            refine NavRes.mapOk_congr _ _ _ (fun y => ?_)
            exact congrArg JValue.arr
              (listMapAt_congr items (pyIndex key) _ _ child hg rfl)
      | null => simp [resolveT, hd] at h
      | bool b => simp [resolveT, hd] at h
      | int n => simp [resolveT, hd] at h
      | str s => simp [resolveT, hd] at h
      | obj pairs => simp [resolveT, hd] at h
    · cases v with
      | obj pairs =>
        cases hg : dictGet pairs key with
        | none => simp [resolveT, hd, hg] at h
        | some child =>
          cases hr : resolveT child rest with
          | none => simp [resolveT, hd, hg, hr] at h
          | some p =>
            obtain ⟨tp2, c2⟩ := p
            simp [resolveT, hd, hg, hr] at h
            obtain ⟨h1, h2⟩ := h
            subst h1
            subst h2
            have ih := updateLoop_append rest child tp2 c2 sfx last_key value hr
            simp only [List.cons_append, updateLoop, if_neg hd, hg, List.append_eq]
            rw [ih, NavRes.mapOk_comp]
            simp only [setT]
            refine NavRes.mapOk_congr _ _ _ (fun y => ?_)
            exact congrArg JValue.obj
              (mapPairsAt_congr pairs key _ _ child hg rfl)
      | null => simp [resolveT, hd] at h
      | bool b => simp [resolveT, hd] at h
      | int n => simp [resolveT, hd] at h
      | str s => simp [resolveT, hd] at h
      | arr items => simp [resolveT, hd] at h

/-- The read-only replay agrees: below a resolvable chain it is the final read. -/
theorem readLoop_append :
    ∀ (segs : List String) (v : JValue) (tp : List TSeg) (c : JValue)
      (sfx : List String) (last_key : String),
    resolveT v segs = some (tp, c) →
    readLoop v (segs ++ sfx) last_key = readLoop c sfx last_key
  | [], v, tp, c, sfx, last_key, h => by
    simp [resolveT] at h
    obtain ⟨rfl, rfl⟩ := h
    rfl
  | key :: rest, v, tp, c, sfx, last_key, h => by
    by_cases hd : pyIsDigit key
    · cases v with
      | arr items =>
        cases hg : items[pyIndex key]? with
        | none => simp [resolveT, hd, hg] at h
        | some child =>
          cases hr : resolveT child rest with
          | none => simp [resolveT, hd, hg, hr] at h
          | some p =>
            obtain ⟨tp2, c2⟩ := p
            simp [resolveT, hd, hg, hr] at h
            obtain ⟨h1, h2⟩ := h
            subst h1
            subst h2
            simp only [List.cons_append, readLoop, hd, if_true, hg, List.append_eq]
            exact readLoop_append rest child tp2 c2 sfx last_key hr
      | null => simp [resolveT, hd] at h
      | bool b => simp [resolveT, hd] at h
      | int n => simp [resolveT, hd] at h
      | str s => simp [resolveT, hd] at h
      | obj pairs => simp [resolveT, hd] at h
    · cases v with
      | obj pairs =>
        cases hg : dictGet pairs key with
        | none => simp [resolveT, hd, hg] at h
        | some child =>
          cases hr : resolveT child rest with
          | none => simp [resolveT, hd, hg, hr] at h
          | some p =>
            obtain ⟨tp2, c2⟩ := p
            simp [resolveT, hd, hg, hr] at h
            obtain ⟨h1, h2⟩ := h
            subst h1
            subst h2
            simp only [List.cons_append, readLoop, if_neg hd, hg, List.append_eq]
            exact readLoop_append rest child tp2 c2 sfx last_key hr
      | null => simp [resolveT, hd] at h
      | bool b => simp [resolveT, hd] at h
      | int n => simp [resolveT, hd] at h
      | str s => simp [resolveT, hd] at h
      | arr items => simp [resolveT, hd] at h

theorem getT_scalar_cons (v : JValue) (s : TSeg) (q : List TSeg)
    (h : isScalar v = true) : getT v (s :: q) = none := by
  cases v <;> cases s <;> first | rfl | simp [isScalar] at h

/-- Writing through a typed path decomposes along an append. -/
theorem setT_append :
    ∀ (p : List TSeg) (v c x : JValue) (q : List TSeg),
    getT v p = some c → setT v (p ++ q) x = setT v p (setT c q x)
  | [], v, c, x, q, h => by
    rw [getT_nil] at h
    cases h
    simp [setT_nil]
  | .key k :: p2, v, c, x, q, h => by
    cases v with
    | obj pairs =>
      simp only [getT] at h
      cases hg : dictGet pairs k with
      | none => rw [hg] at h; simp at h
      | some child =>
        rw [hg] at h
        simp only [List.cons_append, setT]
        exact congrArg JValue.obj
          (mapPairsAt_congr pairs k _ _ child hg (setT_append p2 child c x q h))
    | null => simp [getT] at h
    | bool b => simp [getT] at h
    | int n => simp [getT] at h
    | str s => simp [getT] at h
    | arr items => simp [getT] at h
  | .idx i :: p2, v, c, x, q, h => by
    cases v with
    | arr items =>
      simp only [getT] at h
      cases hg : items[i]? with
      | none => rw [hg] at h; simp at h
      | some child =>
        rw [hg] at h
        simp only [List.cons_append, setT]
        exact congrArg JValue.arr
          (listMapAt_congr items i _ _ child hg (setT_append p2 child c x q h))
    | null => simp [getT] at h
    | bool b => simp [getT] at h
    | int n => simp [getT] at h
    | str s => simp [getT] at h
    | obj pairs => simp [getT] at h

/-- After a write at a resolvable typed path, reading that path gives the new
value. -/
theorem getT_setT_self :
    ∀ (p : List TSeg) (v c x : JValue), getT v p = some c →
    getT (setT v p x) p = some x
  | [], v, c, x, h => by rw [setT_nil, getT_nil]
  | .key k :: p2, v, c, x, h => by
    cases v with
    | obj pairs =>
      simp only [getT] at h
      cases hg : dictGet pairs k with
      | none => rw [hg] at h; simp at h
      | some child =>
        rw [hg] at h
        simp only [setT, getT, dictGet_mapPairsAt_self pairs k _ child hg]
        exact getT_setT_self p2 child c x h
    | null => simp [getT] at h
    | bool b => simp [getT] at h
    | int n => simp [getT] at h
    | str s => simp [getT] at h
    | arr items => simp [getT] at h
  | .idx i :: p2, v, c, x, h => by
    cases v with
    | arr items =>
      simp only [getT] at h
      cases hg : items[i]? with
      | none => rw [hg] at h; simp at h
      | some child =>
        rw [hg] at h
        simp only [setT, getT, get?_listMapAt_self items i _ child hg]
        exact getT_setT_self p2 child c x h
    | null => simp [getT] at h
    | bool b => simp [getT] at h
    | int n => simp [getT] at h
    | str s => simp [getT] at h
    | obj pairs => simp [getT] at h

/-- Writing back the value already there changes nothing. -/
theorem setT_self :
    ∀ (p : List TSeg) (v c : JValue), getT v p = some c → setT v p c = v
  | [], v, c, h => by
    rw [getT_nil] at h
    cases h
    rw [setT_nil]
  | .key k :: p2, v, c, h => by
    cases v with
    | obj pairs =>
      simp only [getT] at h
      cases hg : dictGet pairs k with
      | none => rw [hg] at h; simp at h
      | some child =>
        rw [hg] at h
        simp only [setT]
        rw [mapPairsAt_congr pairs k _ (fun _ => child) child hg (setT_self p2 child c h),
          mapPairsAt_same pairs k child hg]
    | null => simp [getT] at h
    | bool b => simp [getT] at h
    | int n => simp [getT] at h
    | str s => simp [getT] at h
    | arr items => simp [getT] at h
  | .idx i :: p2, v, c, h => by
    cases v with
    | arr items =>
      simp only [getT] at h
      cases hg : items[i]? with
      | none => rw [hg] at h; simp at h
      | some child =>
        rw [hg] at h
        simp only [setT]
        rw [listMapAt_congr items i _ (fun _ => child) child hg (setT_self p2 child c h),
          listMapAt_same items i child hg]
    | null => simp [getT] at h
    | bool b => simp [getT] at h
    | int n => simp [getT] at h
    | str s => simp [getT] at h
    | obj pairs => simp [getT] at h

/-- The frame property of a single-leaf write: every other scalar location
reads back unchanged. -/
theorem getT_setT_frame :
    ∀ (p : List TSeg) (v oldv x : JValue) (q : List TSeg) (w : JValue),
    getT v p = some oldv → isScalar oldv = true →
    q ≠ p → getT v q = some w → isScalar w = true →
    getT (setT v p x) q = some w
  | [], v, oldv, x, q, w, hp, hs, hq, hw, hws => by
    rw [getT_nil] at hp
    cases hp
    cases q with
    | nil => exact absurd rfl hq
    | cons s q2 => rw [getT_scalar_cons v s q2 hs] at hw; exact absurd hw (by simp)
  | .key k :: p2, v, oldv, x, q, w, hp, hs, hq, hw, hws => by
    cases v with
    | obj pairs =>
      simp only [getT] at hp
      cases hg : dictGet pairs k with
      | none => rw [hg] at hp; simp at hp
      | some child =>
        rw [hg] at hp
        cases q with
        | nil =>
          rw [getT_nil] at hw
          cases hw
          simp [isScalar] at hws
        | cons s q2 =>
          cases s with
          | key k2 =>
            by_cases hk : k2 = k
            · subst hk
              have hq2 : q2 ≠ p2 := fun h => hq (h ▸ rfl)
              simp only [getT, hg] at hw
              simp only [setT, getT, dictGet_mapPairsAt_self pairs k2 _ child hg]
              exact getT_setT_frame p2 child oldv x q2 w hp hs hq2 hw hws
            · simp only [getT] at hw
              simp only [setT, getT, dictGet_mapPairsAt_ne pairs k k2 _ hk]
              exact hw
          | idx i => simp [getT] at hw
    | null => simp [getT] at hp
    | bool b => simp [getT] at hp
    | int n => simp [getT] at hp
    | str s => simp [getT] at hp
    | arr items => simp [getT] at hp
  | .idx i :: p2, v, oldv, x, q, w, hp, hs, hq, hw, hws => by
    cases v with
    | arr items =>
      simp only [getT] at hp
      cases hg : items[i]? with
      | none => rw [hg] at hp; simp at hp
      | some child =>
        rw [hg] at hp
        cases q with
        | nil =>
          rw [getT_nil] at hw
          cases hw
          simp [isScalar] at hws
        | cons s q2 =>
          cases s with
          | idx j =>
            by_cases hj : j = i
            · subst hj
              have hq2 : q2 ≠ p2 := fun h => hq (h ▸ rfl)
              simp only [getT, hg] at hw
              simp only [setT, getT, get?_listMapAt_self items j _ child hg]
              exact getT_setT_frame p2 child oldv x q2 w hp hs hq2 hw hws
            · simp only [getT] at hw
              simp only [setT, getT, get?_listMapAt_ne items i j _ hj]
              exact hw
          | key k => simp [getT] at hw
    | null => simp [getT] at hp
    | bool b => simp [getT] at hp
    | int n => simp [getT] at hp
    | str s => simp [getT] at hp
    | obj pairs => simp [getT] at hp

/-- Reading decomposes along an append. -/
theorem getT_append :
    ∀ (p : List TSeg) (v c : JValue) (q : List TSeg),
    getT v p = some c → getT v (p ++ q) = getT c q
  | [], v, c, q, h => by
    rw [getT_nil] at h
    cases h
    rfl
  | .key k :: p2, v, c, q, h => by
    cases v with
    | obj pairs =>
      simp only [getT] at h
      cases hg : dictGet pairs k with
      | none => rw [hg] at h; simp at h
      | some child =>
        rw [hg] at h
        simp only [List.cons_append, getT, hg]
        exact getT_append p2 child c q h
    | null => simp [getT] at h
    | bool b => simp [getT] at h
    | int n => simp [getT] at h
    | str s => simp [getT] at h
    | arr items => simp [getT] at h
  | .idx i :: p2, v, c, q, h => by
    cases v with
    | arr items =>
      simp only [getT] at h
      cases hg : items[i]? with
      | none => rw [hg] at h; simp at h
      | some child =>
        rw [hg] at h
        simp only [List.cons_append, getT, hg]
        exact getT_append p2 child c q h
    | null => simp [getT] at h
    | bool b => simp [getT] at h
    | int n => simp [getT] at h
    | str s => simp [getT] at h
    | obj pairs => simp [getT] at h

theorem getT_single_key (pairs : List (String × JValue)) (k : String) :
    getT (.obj pairs) [.key k] = dictGet pairs k := by
  cases hg : dictGet pairs k with
  | none => simp [getT, hg]
  | some c => simp [getT, hg, getT_nil]

/-- A present final key is written through `coerced` - the write is exactly a
single-leaf `setT`. -/
theorem finalStep_write (cpairs : List (String × JValue)) (last value : String)
    (cur : JValue) (h : dictGet cpairs last = some cur) :
    finalStep (.obj cpairs) last value =
      .ok (setT (.obj cpairs) [.key last] (coerced cur value)) := by
  simp only [finalStep, h, setT]

/-- A miss of the `last_key in model` test keeps the container unchanged but
still ends in the ok branch (the label update). -/
theorem finalStep_absent (c : JValue) (last value : String)
    (h : finalAbsent c last = true) : finalStep c last value = .ok c := by
  cases c with
  | obj pairs =>
    cases hg : dictGet pairs last with
    | some cur => rw [finalAbsent, containsKey, hg] at h; simp at h
    | none => simp [finalStep, hg]
  | arr items =>
    simp only [finalAbsent, Bool.not_eq_true'] at h
    simp [finalStep, h]
  | str s =>
    simp only [finalAbsent, Bool.not_eq_true'] at h
    simp [finalStep, h]
  | null => simp [finalAbsent] at h
  | bool b => simp [finalAbsent] at h
  | int n => simp [finalAbsent] at h

/-- A miss of the intermediate `key in model` test is the handled error branch. -/
theorem updateLoop_stepAbsent (c : JValue) (key : String) (mid : List String)
    (last value : String) (h : stepAbsent c key = true) :
    updateLoop c (key :: mid) last value = .pathMsg := by
  have hd : pyIsDigit key = false := by
    cases hdig : pyIsDigit key with
    | false => rfl
    | true => rw [stepAbsent, hdig] at h; simp at h
  rw [stepAbsent, hd] at h
  simp only [Bool.not_false, Bool.true_and] at h
  cases c with
  | obj pairs =>
    cases hg : dictGet pairs key with
    | some child => rw [finalAbsent, containsKey, hg] at h; simp at h
    | none => simp [updateLoop, hd, hg]
  | arr items =>
    simp only [finalAbsent, Bool.not_eq_true'] at h
    simp [updateLoop, hd, h]
  | str s =>
    simp only [finalAbsent, Bool.not_eq_true'] at h
    simp [updateLoop, hd, h]
  | null => simp [finalAbsent] at h
  | bool b => simp [finalAbsent] at h
  | int n => simp [finalAbsent] at h

/-- Master lemma for a commit whose final key is present in the container the
intermediate segments reach: the outcome is ok, and both the model subtree and
the whole document are single-leaf writes of the coerced value. -/
theorem update_model_value_writes (pairs : List (String × JValue)) (m : JValue)
    (pfx : List String) (tp : List TSeg) (cpairs : List (String × JValue))
    (last value : String) (cur : JValue)
    (hm : dictGet pairs "model" = some m)
    (hr : resolveT m pfx = some (tp, .obj cpairs))
    (hl : dictGet cpairs last = some cur) :
    update_model_value (.obj pairs) (pfx ++ [last]) value =
      .ok (setT m (tp ++ [.key last]) (coerced cur value)) ∧
    docAfter (.obj pairs) (pfx ++ [last]) value =
      setT (.obj pairs) (.key "model" :: (tp ++ [.key last])) (coerced cur value) := by
  have hgm : getT m tp = some (.obj cpairs) := resolveT_getT pfx m tp _ hr
  have hnav : update_model_value (.obj pairs) (pfx ++ [last]) value =
      .ok (setT m (tp ++ [.key last]) (coerced cur value)) := by
    have happ := updateLoop_append pfx m tp (.obj cpairs) [] last value hr
    rw [List.append_nil] at happ
    simp only [update_model_value, hm, List.getLast?_concat, List.dropLast_concat]
    rw [happ, updateLoop_nil, finalStep_write cpairs last value cur hl]
    simp only [NavRes.mapOk]
    rw [← setT_append tp m (.obj cpairs) (coerced cur value) [.key last] hgm]
  refine ⟨hnav, ?_⟩
  simp only [docAfter, hnav, setT]
  refine congrArg JValue.obj ?_
  exact mapPairsAt_congr pairs "model" _ _ m hm rfl

/-- Master lemma for a commit whose final key misses the membership test: the
outcome is still ok (so the label is refreshed) but nothing is written. -/
theorem update_model_value_labelOnly (pairs : List (String × JValue)) (m : JValue)
    (pfx : List String) (tp : List TSeg) (c : JValue) (last value : String)
    (hm : dictGet pairs "model" = some m)
    (hr : resolveT m pfx = some (tp, c))
    (habs : finalAbsent c last = true) :
    update_model_value (.obj pairs) (pfx ++ [last]) value = .ok m ∧
    docAfter (.obj pairs) (pfx ++ [last]) value = .obj pairs := by
  have hgm : getT m tp = some c := resolveT_getT pfx m tp c hr
  have hnav : update_model_value (.obj pairs) (pfx ++ [last]) value = .ok m := by
    have happ := updateLoop_append pfx m tp c [] last value hr
    rw [List.append_nil] at happ
    simp only [update_model_value, hm, List.getLast?_concat, List.dropLast_concat]
    rw [happ, updateLoop_nil, finalStep_absent c last value habs]
    simp only [NavRes.mapOk]
    rw [setT_self tp m c hgm]
  refine ⟨hnav, ?_⟩
  simp only [docAfter, hnav]
  exact congrArg JValue.obj (mapPairsAt_same pairs "model" m hm)

/-- Master lemma for a commit with an unresolvable non-index intermediate
segment: the handled error dialog fires, the document and the label stay as
they were. -/
theorem update_model_value_pathMsg (pairs : List (String × JValue)) (m : JValue)
    (pfx : List String) (tp : List TSeg) (c : JValue) (key : String)
    (mid : List String) (last value : String)
    (hm : dictGet pairs "model" = some m)
    (hr : resolveT m pfx = some (tp, c))
    (habs : stepAbsent c key = true) :
    update_model_value (.obj pairs) ((pfx ++ key :: mid) ++ [last]) value = .pathMsg ∧
    docAfter (.obj pairs) ((pfx ++ key :: mid) ++ [last]) value = .obj pairs ∧
    ∀ oldLabel ck, labelAfter oldLabel ck value
      (update_model_value (.obj pairs) ((pfx ++ key :: mid) ++ [last]) value) = oldLabel := by
  have hnav : update_model_value (.obj pairs) ((pfx ++ key :: mid) ++ [last]) value
      = .pathMsg := by
    simp only [update_model_value, hm, List.getLast?_concat, List.dropLast_concat]
    rw [updateLoop_append pfx m tp c (key :: mid) last value hr,
      updateLoop_stepAbsent c key mid last value habs]
    rfl
  refine ⟨hnav, ?_, ?_⟩
  · simp only [docAfter, hnav]
  · intro oldLabel ck
    rw [hnav]
    rfl

/-- The target leaf of a commit, read from the document root. -/
theorem getT_doc_target (pairs : List (String × JValue)) (m : JValue)
    (tp : List TSeg) (cpairs : List (String × JValue)) (last : String) (cur : JValue)
    (hm : dictGet pairs "model" = some m)
    (hgm : getT m tp = some (.obj cpairs))
    (hl : dictGet cpairs last = some cur) :
    getT (.obj pairs) (.key "model" :: (tp ++ [.key last])) = some cur := by
  simp only [getT, hm]
  rw [getT_append tp m _ [.key last] hgm, getT_single_key, hl]

/-! ## The claims -/

/-- C1: path-resolution consistency fails on the code.  The tree built from
`docDemo` contains the leaf labelled `"name: Customers"` under the item node
`"Customers"` under the group `"tables"`; `get_json_path` reconstructs the
path `["tables", "Customers", "name"]` from those labels; but replaying that
path through the lookup `update_model_value` performs does not succeed with
the value `"Customers"` shown in the label - the item-name segment
`"Customers"` is a list-membership test on `model["tables"]` and misses, so
the replay ends in the handled path-error branch. -/
theorem c1_path_resolution_fails :
    (∃ t, load_tree docDemo = .ok t ∧
      ["tables", "Customers", "name: Customers"] ∈ nodeChains t) ∧
    get_json_path ["tables", "Customers", "name: Customers"]
      = ["tables", "Customers", "name"] ∧
    getViaUpdatePath docDemo ["tables", "Customers", "name"] = .pathMsg ∧
    ∀ v, getViaUpdatePath docDemo ["tables", "Customers", "name"]
      ≠ .value v := by
  have h3 : getViaUpdatePath docDemo ["tables", "Customers", "name"] = .pathMsg := rfl
  refine ⟨⟨.mk "Model" [.mk "name: Demo" [], .mk "compatibilityLevel: 1200" [],
    .mk "dataSources" [], .mk "tables" [.mk "Customers" [.mk "name: Customers" []]],
    .mk "relationships" [], .mk "perspectives" [], .mk "annotations" [],
    .mk "translations" []], rfl, by decide⟩, rfl, h3, ?_⟩
  intro v hv
  rw [h3] at hv
  exact GetRes.noConfusion hv

/-- C2: the edit-name scenario fails on the code.  Selecting the leaf
`"name: Sales"` yields the path `["tables", "Sales", "name"]`; committing
`"Sales2"` hits the handled path-error branch (the segment `"Sales"` misses
the list-membership test on `model["tables"]`): the document still holds
`"Sales"` at `model.tables[0].name` and the label is not rewritten - the
claim expected `"Sales2"` in both. -/
theorem c2_edit_name_scenario_fails :
    (∃ t, load_tree docSales = .ok t ∧
      ["tables", "Sales", "name: Sales"] ∈ nodeChains t) ∧
    get_json_path ["tables", "Sales", "name: Sales"] = ["tables", "Sales", "name"] ∧
    update_model_value docSales ["tables", "Sales", "name"] "Sales2" = .pathMsg ∧
    docAfter docSales ["tables", "Sales", "name"] "Sales2" = docSales ∧
    getT (docAfter docSales ["tables", "Sales", "name"] "Sales2")
      [.key "model", .key "tables", .idx 0, .key "name"] = some (.str "Sales") ∧
    labelAfter "name: Sales" "name" "Sales2"
      (update_model_value docSales ["tables", "Sales", "name"] "Sales2")
      = "name: Sales" :=
  ⟨⟨.mk "Model" [.mk "name: MyModel" [], .mk "compatibilityLevel: 1500" [],
    .mk "dataSources" [], .mk "tables" [.mk "Sales" [.mk "name: Sales" []]],
    .mk "relationships" [], .mk "perspectives" [], .mk "annotations" [],
    .mk "translations" []], rfl, by decide⟩, rfl, rfl, rfl, rfl, rfl⟩

/-- C3: type-preserving commit.  For a commit whose intermediate segments
resolve (digit segments as in-range list indexes, other segments as present
mapping keys) to a mapping whose final key holds the integer 42: committing
`"7"` stores the integer 7 at exactly that leaf, committing `"abc"` stores the
string `"abc"` (the silent fallback), and in both cases every other scalar
location of the document reads back unchanged. -/
theorem c3_type_preserving_commit (pairs : List (String × JValue)) (m : JValue)
    (pfx : List String) (tp : List TSeg) (cpairs : List (String × JValue))
    (last : String)
    (hm : dictGet pairs "model" = some m)
    (hr : resolveT m pfx = some (tp, .obj cpairs))
    (hl : dictGet cpairs last = some (.int 42)) :
    getT (docAfter (.obj pairs) (pfx ++ [last]) "7")
      (.key "model" :: (tp ++ [.key last])) = some (.int 7) ∧
    getT (docAfter (.obj pairs) (pfx ++ [last]) "abc")
      (.key "model" :: (tp ++ [.key last])) = some (.str "abc") ∧
    ∀ q w, q ≠ .key "model" :: (tp ++ [.key last]) →
      getT (.obj pairs) q = some w → isScalar w = true →
      getT (docAfter (.obj pairs) (pfx ++ [last]) "7") q = some w ∧
      getT (docAfter (.obj pairs) (pfx ++ [last]) "abc") q = some w := by
  have hgm : getT m tp = some (.obj cpairs) := resolveT_getT pfx m tp _ hr
  have hw7 := update_model_value_writes pairs m pfx tp cpairs last "7" (.int 42) hm hr hl
  have hwa := update_model_value_writes pairs m pfx tp cpairs last "abc" (.int 42) hm hr hl
  have htarget : getT (.obj pairs) (.key "model" :: (tp ++ [.key last]))
      = some (.int 42) := getT_doc_target pairs m tp cpairs last _ hm hgm hl
  have hc7 : coerced (.int 42) "7" = .int 7 := rfl
  have hca : coerced (.int 42) "abc" = .str "abc" := rfl
  refine ⟨?_, ?_, ?_⟩
  · rw [hw7.2, hc7]
    exact getT_setT_self _ _ _ _ htarget
  · rw [hwa.2, hca]
    exact getT_setT_self _ _ _ _ htarget
  · intro q w hq hget hsc
    constructor
    · rw [hw7.2, hc7]
      exact getT_setT_frame _ _ _ _ _ _ htarget rfl hq hget hsc
    · rw [hwa.2, hca]
      exact getT_setT_frame _ _ _ _ _ _ htarget rfl hq hget hsc

/-- C3 witness, at `docRows` and the path `["tables", "0", "rows"]`: the two
writes land as an integer and as a string, and the sibling leaf
`model.tables[0].name` is untouched by both. -/
theorem c3_type_preserving_commit_witness :
    (getT (docAfter docRows ["tables", "0", "rows"] "7")
      [.key "model", .key "tables", .idx 0, .key "rows"] = some (.int 7) ∧
    getT (docAfter docRows ["tables", "0", "rows"] "abc")
      [.key "model", .key "tables", .idx 0, .key "rows"] = some (.str "abc")) ∧
    getT (docAfter docRows ["tables", "0", "rows"] "7")
      [.key "model", .key "tables", .idx 0, .key "name"] = some (.str "T") ∧
    getT (docAfter docRows ["tables", "0", "rows"] "abc")
      [.key "model", .key "tables", .idx 0, .key "name"] = some (.str "T") := by
  have h := c3_type_preserving_commit
    [("name", .str "W"), ("compatibilityLevel", .int 1400),
      ("model", .obj [("tables", .arr [.obj [("name", .str "T"), ("rows", .int 42)]])])]
    (.obj [("tables", .arr [.obj [("name", .str "T"), ("rows", .int 42)]])])
    ["tables", "0"] [.key "tables", .idx 0]
    [("name", .str "T"), ("rows", .int 42)] "rows" rfl rfl rfl
  have hf := h.2.2 [.key "model", .key "tables", .idx 0, .key "name"] (.str "T")
    (by decide) rfl rfl
  exact ⟨⟨h.1, h.2.1⟩, hf.1, hf.2⟩

/-- C5 counterexample: a commit whose intermediate segment `"5"` is an
out-of-range index does NOT fail with the surfaced path error - it raises an
uncaught IndexError instead, so the claim as stated is false at this input. -/
theorem c5_counterexample_index_crash :
    update_model_value docSrc ["dataSources", "5", "name"] "y" = .exn .indexError ∧
    update_model_value docSrc ["dataSources", "5", "name"] "y" ≠ .pathMsg := by
  have h : update_model_value docSrc ["dataSources", "5", "name"] "y"
      = .exn .indexError := rfl
  refine ⟨h, ?_⟩
  intro hp
  rw [h] at hp
  exact NavRes.noConfusion hp

/-- C5 (amended): when the unresolvable intermediate segment is a non-digit
key whose membership test misses its container, the commit fails with the
surfaced path-error message, the document is left completely unchanged, and
the label is not rewritten (the session continues); an out-of-range index
segment instead raises an uncaught IndexError (see the counterexample). -/
theorem c5_missing_intermediate_pathMsg (pairs : List (String × JValue)) (m : JValue)
    (pfx : List String) (tp : List TSeg) (c : JValue) (key : String)
    (mid : List String) (last value : String)
    (hm : dictGet pairs "model" = some m)
    (hr : resolveT m pfx = some (tp, c))
    (habs : stepAbsent c key = true) :
    update_model_value (.obj pairs) ((pfx ++ key :: mid) ++ [last]) value = .pathMsg ∧
    docAfter (.obj pairs) ((pfx ++ key :: mid) ++ [last]) value = .obj pairs ∧
    ∀ oldLabel ck, labelAfter oldLabel ck value
      (update_model_value (.obj pairs) ((pfx ++ key :: mid) ++ [last]) value)
      = oldLabel :=
  update_model_value_pathMsg pairs m pfx tp c key mid last value hm hr habs

/-- C5 witness, at a table object that has no `"missing"` key used as an
intermediate segment. -/
theorem c5_missing_intermediate_pathMsg_witness :
    update_model_value docRows ["tables", "0", "missing", "name"] "z" = .pathMsg ∧
    docAfter docRows ["tables", "0", "missing", "name"] "z" = docRows ∧
    labelAfter "name: T" "name" "z"
      (update_model_value docRows ["tables", "0", "missing", "name"] "z")
      = "name: T" := by
  have h := c5_missing_intermediate_pathMsg
    [("name", .str "W"), ("compatibilityLevel", .int 1400),
      ("model", .obj [("tables", .arr [.obj [("name", .str "T"), ("rows", .int 42)]])])]
    (.obj [("tables", .arr [.obj [("name", .str "T"), ("rows", .int 42)]])])
    ["tables", "0"] [.key "tables", .idx 0]
    (.obj [("name", .str "T"), ("rows", .int 42)]) "missing" [] "name" "z"
    rfl rfl rfl
  exact ⟨h.1, h.2.1, h.2.2 "name: T" "name"⟩

/-- C6: an out-of-range sequence-index segment is NOT rejected with the
handled path error - `model[int(key)]` has no bounds check and raises an
uncaught IndexError.  The document happens to be unchanged (byte-for-byte
under re-serialization), but the "fails with PathError, not a crash" part of
the claim is false: the code crashes. -/
theorem c6_oob_index_crashes :
    update_model_value docNoRows ["tables", "0", "name"] "x" = .exn .indexError ∧
    update_model_value docNoRows ["tables", "0", "name"] "x" ≠ .pathMsg ∧
    docAfter docNoRows ["tables", "0", "name"] "x" = docNoRows ∧
    json_dump (docAfter docNoRows ["tables", "0", "name"] "x") = json_dump docNoRows := by
  have h : update_model_value docNoRows ["tables", "0", "name"] "x"
      = .exn .indexError := rfl
  refine ⟨h, ?_, rfl, rfl⟩
  intro hp
  rw [h] at hp
  exact NavRes.noConfusion hp

/-- C7: a commit whose intermediate segments all resolve but whose final
segment misses the membership test in the reached container leaves the
document unchanged while the selected node's label is still rewritten to
`"{key}: {newText}"`. -/
theorem c7_absent_final_label_only (pairs : List (String × JValue)) (m : JValue)
    (pfx : List String) (tp : List TSeg) (c : JValue) (last value : String)
    (oldLabel ck : String)
    (hm : dictGet pairs "model" = some m)
    (hr : resolveT m pfx = some (tp, c))
    (habs : finalAbsent c last = true) :
    docAfter (.obj pairs) (pfx ++ [last]) value = .obj pairs ∧
    labelAfter oldLabel ck value
      (update_model_value (.obj pairs) (pfx ++ [last]) value)
      = ck ++ ": " ++ value := by
  have h := update_model_value_labelOnly pairs m pfx tp c last value hm hr habs
  refine ⟨h.2, ?_⟩
  rw [h.1]
  rfl

/-- C7 witness: committing to the absent key `"description"` of
`model.tables[0]` changes nothing in the document but rewrites the label. -/
theorem c7_absent_final_label_only_witness :
    docAfter docRows ["tables", "0", "description"] "new text" = docRows ∧
    labelAfter "description: " "description" "new text"
      (update_model_value docRows ["tables", "0", "description"] "new text")
      = "description: new text" := by
  have h := c7_absent_final_label_only
    [("name", .str "W"), ("compatibilityLevel", .int 1400),
      ("model", .obj [("tables", .arr [.obj [("name", .str "T"), ("rows", .int 42)]])])]
    (.obj [("tables", .arr [.obj [("name", .str "T"), ("rows", .int 42)]])])
    ["tables", "0"] [.key "tables", .idx 0]
    (.obj [("name", .str "T"), ("rows", .int 42)]) "description" "new text"
    "description: " "description" rfl rfl rfl
  exact h

/-- C9: a boolean leaf passes the `isinstance(..., int)` test, so a commit on
it attempts integer parsing of the new text: on success the parsed integer is
stored, on failure the raw string - in neither case does the field remain a
boolean. -/
theorem c9_bool_int_coercion (pairs : List (String × JValue)) (m : JValue)
    (pfx : List String) (tp : List TSeg) (cpairs : List (String × JValue))
    (last value : String) (b : Bool)
    (hm : dictGet pairs "model" = some m)
    (hr : resolveT m pfx = some (tp, .obj cpairs))
    (hl : dictGet cpairs last = some (.bool b)) :
    (∀ n, pyIntParse value = some n →
      getT (docAfter (.obj pairs) (pfx ++ [last]) value)
        (.key "model" :: (tp ++ [.key last])) = some (.int n)) ∧
    (pyIntParse value = none →
      getT (docAfter (.obj pairs) (pfx ++ [last]) value)
        (.key "model" :: (tp ++ [.key last])) = some (.str value)) ∧
    ∀ b2, getT (docAfter (.obj pairs) (pfx ++ [last]) value)
      (.key "model" :: (tp ++ [.key last])) ≠ some (.bool b2) := by
  have hgm : getT m tp = some (.obj cpairs) := resolveT_getT pfx m tp _ hr
  have hw := update_model_value_writes pairs m pfx tp cpairs last value (.bool b) hm hr hl
  have htarget : getT (.obj pairs) (.key "model" :: (tp ++ [.key last]))
      = some (.bool b) := getT_doc_target pairs m tp cpairs last _ hm hgm hl
  have hget : getT (docAfter (.obj pairs) (pfx ++ [last]) value)
      (.key "model" :: (tp ++ [.key last])) = some (coerced (.bool b) value) := by
    rw [hw.2]
    exact getT_setT_self _ _ _ _ htarget
  refine ⟨?_, ?_, ?_⟩
  · intro n hn
    rw [hget]
    simp [coerced, isIntInstance, hn]
  · intro hn
    rw [hget]
    simp [coerced, isIntInstance, hn]
  · intro b2 hcontra
    rw [hget] at hcontra
    cases hp : pyIntParse value with
    | some n => simp [coerced, isIntInstance, hp] at hcontra
    | none => simp [coerced, isIntInstance, hp] at hcontra

/-- C9 witness: committing `"7"` to the boolean leaf stores the integer 7;
committing `"maybe"` stores the string; neither leaves a boolean. -/
theorem c9_bool_int_coercion_witness :
    getT (docAfter docFlag ["tables", "0", "isHidden"] "7")
      [.key "model", .key "tables", .idx 0, .key "isHidden"] = some (.int 7) ∧
    getT (docAfter docFlag ["tables", "0", "isHidden"] "maybe")
      [.key "model", .key "tables", .idx 0, .key "isHidden"] = some (.str "maybe") ∧
    ∀ b2, getT (docAfter docFlag ["tables", "0", "isHidden"] "7")
      [.key "model", .key "tables", .idx 0, .key "isHidden"] ≠ some (.bool b2) := by
  have h7 := c9_bool_int_coercion
    [("name", .str "F"), ("compatibilityLevel", .int 1300),
      ("model", .obj [("tables", .arr [.obj [("name", .str "T2"),
        ("isHidden", .bool true)]])])]
    (.obj [("tables", .arr [.obj [("name", .str "T2"), ("isHidden", .bool true)]])])
    ["tables", "0"] [.key "tables", .idx 0]
    [("name", .str "T2"), ("isHidden", .bool true)] "isHidden" "7" true rfl rfl rfl
  have hm := c9_bool_int_coercion
    [("name", .str "F"), ("compatibilityLevel", .int 1300),
      ("model", .obj [("tables", .arr [.obj [("name", .str "T2"),
        ("isHidden", .bool true)]])])]
    (.obj [("tables", .arr [.obj [("name", .str "T2"), ("isHidden", .bool true)]])])
    ["tables", "0"] [.key "tables", .idx 0]
    [("name", .str "T2"), ("isHidden", .bool true)] "isHidden" "maybe" true rfl rfl rfl
  exact ⟨h7.1 7 rfl, hm.2.1 rfl, h7.2.2⟩

/-- C10: every commit resolves its path inside the document's top-level
`"model"` mapping, never at the root: over an arbitrary root object (any
bindings, any order, as long as `"model"` holds a mapping), no commit ever
mutates any root-level binding other than `"model"` - in particular the
root-level `name` and `compatibilityLevel` read back unchanged after every
commit; and a commit on a single-segment path such as `["name"]` or
`["compatibilityLevel"]` instead looks the key up inside `document["model"]`,
mutating the model's binding of that name when present, and otherwise leaving
the document untouched and only rewriting the display label. -/
theorem c10_commits_start_at_model (rpairs mpairs : List (String × JValue))
    (hm : dictGet rpairs "model" = some (.obj mpairs)) :
    (∀ (path : List String) (value k : String), k ≠ "model" →
      getT (docAfter (.obj rpairs) path value) [.key k] = dictGet rpairs k) ∧
    (∀ (k value : String) (cur : JValue), dictGet mpairs k = some cur →
      docAfter (.obj rpairs) [k] value =
        .obj (mapPairsAt rpairs "model"
          (fun _ => .obj (mapPairsAt mpairs k (fun _ => coerced cur value))))) ∧
    (∀ (k value : String), dictGet mpairs k = none →
      docAfter (.obj rpairs) [k] value = .obj rpairs ∧
      ∀ oldLabel ck, labelAfter oldLabel ck value
        (update_model_value (.obj rpairs) [k] value) = ck ++ ": " ++ value) := by
  refine ⟨?_, ?_, ?_⟩
  · intro path value k hk
    cases hres : update_model_value (.obj rpairs) path value with
    | ok m2 =>
      simp only [docAfter, hres]
      rw [getT_single_key, dictGet_mapPairsAt_ne rpairs "model" k _ hk]
    | pathMsg =>
      simp only [docAfter, hres]
      rw [getT_single_key]
    | exn e =>
      simp only [docAfter, hres]
      rw [getT_single_key]
  · intro k value cur hcur
    have hw := update_model_value_writes rpairs (.obj mpairs) [] [] mpairs
      k value cur hm rfl hcur
    have h2 := hw.2
    rw [List.nil_append] at h2
    rw [h2]
    show JValue.obj (mapPairsAt rpairs "model"
        (fun c => setT c [TSeg.key k] (coerced cur value))) = _
    refine congrArg JValue.obj
      (mapPairsAt_congr rpairs "model" _ _ (.obj mpairs) hm ?_)
    show JValue.obj (mapPairsAt mpairs k (fun c => setT c [] (coerced cur value)))
      = JValue.obj (mapPairsAt mpairs k (fun _ => coerced cur value))
    exact congrArg JValue.obj
      (mapPairsAt_congr mpairs k _ _ cur hcur (setT_nil _ _))
  · intro k value hnone
    have habs : finalAbsent (.obj mpairs) k = true := by
      simp [finalAbsent, containsKey, hnone]
    have h := update_model_value_labelOnly rpairs (.obj mpairs) [] []
      (.obj mpairs) k value hm rfl habs
    rw [List.nil_append] at h
    refine ⟨h.2, ?_⟩
    intro oldLabel ck
    rw [h.1]
    rfl

/-- C10 witness: over `docPlain`, a deep commit leaves the root-level `name`
and `compatibilityLevel` unchanged; a commit on the root-level `name` leaf
writes the `name` binding of `model` instead; a commit on the root-level
`compatibilityLevel` leaf (absent from `model`) changes nothing but the
label. -/
theorem c10_commits_start_at_model_witness :
    getT (docAfter docPlain ["tables", "0", "name"] "T2") [.key "name"]
      = some (.str "Root") ∧
    getT (docAfter docPlain ["tables", "0", "name"] "T2") [.key "compatibilityLevel"]
      = some (.int 1600) ∧
    docAfter docPlain ["name"] "Renamed" =
      .obj [("name", .str "Root"), ("compatibilityLevel", .int 1600),
        ("model", .obj [("name", .str "Renamed"), ("tables", .arr [])])] ∧
    docAfter docPlain ["compatibilityLevel"] "1700" = docPlain ∧
    labelAfter "compatibilityLevel: 1600" "compatibilityLevel" "1700"
      (update_model_value docPlain ["compatibilityLevel"] "1700")
      = "compatibilityLevel: 1700" := by
  have h := c10_commits_start_at_model
    [("name", .str "Root"), ("compatibilityLevel", .int 1600),
      ("model", .obj [("name", .str "InnerName"), ("tables", .arr [])])]
    [("name", .str "InnerName"), ("tables", .arr [])] rfl
  refine ⟨?_, ?_, ?_, ?_, ?_⟩
  · exact (h.1 ["tables", "0", "name"] "T2" "name" (by decide)).trans rfl
  · exact (h.1 ["tables", "0", "name"] "T2" "compatibilityLevel" (by decide)).trans rfl
  · exact (h.2.1 "name" "Renamed" (.str "InnerName") rfl).trans rfl
  · exact (h.2.2 "compatibilityLevel" "1700" rfl).1
  · exact (h.2.2 "compatibilityLevel" "1700" rfl).2 "compatibilityLevel: 1600"
      "compatibilityLevel"

/-- C8: a failed save reports the error and leaves the in-memory document (and
the stored path) untouched; a later successful save writes exactly the
serialization of the then-current in-memory document, including an edit made
between the two attempts. -/
theorem c8_save_failure_preserves_memory (s : App) (p : String)
    (hp : s.file_path = some p) (failContent : Option String)
    (path : List String) (value : String) :
    (save_bim_file false failContent s).2 = .saveError ∧
    (save_bim_file false failContent s).1.bim_data = s.bim_data ∧
    (save_bim_file false failContent s).1.file_path = s.file_path ∧
    (save_bim_file true none
      (commitEdit path value (save_bim_file false failContent s).1)).2 = .saved ∧
    (save_bim_file true none
      (commitEdit path value (save_bim_file false failContent s).1)).1.disk
      = some (json_dump (docAfter s.bim_data path value)) := by
  simp [save_bim_file, hp, commitEdit]

/-! ## Round trip of the persistence gateway (claim C4) -/

theorem dumpItems_eq : ∀ (x : JValue) (xs : List JValue) (lv : Nat),
    dumpItems (x :: xs) lv = indentSp lv ++ (dumpChars x lv ++ itemsTail xs lv)
  | x, [], lv => by simp [dumpItems, itemsTail]
  | x, y :: ys, lv => by
    simp only [dumpItems, itemsTail, dumpItems_eq y ys lv, List.append_assoc,
      List.cons_append, List.nil_append]

theorem dumpPairs_eq : ∀ (k : String) (v : JValue) (ps : List (String × JValue)) (lv : Nat),
    dumpPairs ((k, v) :: ps) lv =
      indentSp lv ++ (qu :: (escString k ++ qu :: ':' :: ' ' ::
        (dumpChars v lv ++ pairsTail ps lv)))
  | k, v, [], lv => by simp [dumpPairs, pairsTail]
  | k, v, (k2, v2) :: ps, lv => by
    simp only [dumpPairs, pairsTail, dumpPairs_eq k2 v2 ps lv, List.append_assoc,
      List.cons_append, List.nil_append]

theorem dropWs_spaces (n : Nat) (x : List Char) :
    dropWs (List.replicate n ' ' ++ x) = dropWs x := by
  induction n with
  | zero => rfl
  | succ m ih => simp [List.replicate, dropWs, isJsonWs, ih]

theorem dropWs_indent (lv : Nat) (x : List Char) :
    dropWs (indentSp lv ++ x) = dropWs x := dropWs_spaces (4 * lv) x

theorem dropWs_nl (x : List Char) : dropWs ('\n' :: x) = dropWs x := by
  simp [dropWs, isJsonWs]

theorem isAsciiDigit_digitChar (k : Nat) (h : k < 10) :
    isAsciiDigit (Char.ofNat (48 + k)) = true := by
  interval_cases k <;> decide

theorem toNat_digitChar (k : Nat) (h : k < 10) : (Char.ofNat (48 + k)).toNat = 48 + k := by
  interval_cases k <;> decide

/-- Enough fuel makes `natDecAux` compute `natDec` with the accumulator
appended. -/
theorem natDecAux_spec (n : Nat) : ∀ (fuel : Nat) (acc : List Char), n < fuel →
    natDecAux fuel n acc = natDec n ++ acc := by
  induction n using Nat.strong_induction_on with
  | _ n ih =>
    intro fuel acc hlt
    cases fuel with
    | zero => omega
    | succ f =>
      by_cases h10 : n < 10
      · simp only [natDecAux, if_pos h10]
        have hbase : natDec n = [Char.ofNat (48 + n)] := by
          simp only [natDec, natDecAux, if_pos h10]
        rw [hbase]
        rfl
      · have hdiv : n / 10 < n := Nat.div_lt_self (by omega) (by omega)
        simp only [natDecAux, if_neg h10]
        rw [ih (n / 10) hdiv f _ (by omega)]
        have h1 : natDec n = natDecAux n (n / 10) [Char.ofNat (48 + n % 10)] := by
          simp only [natDec, natDecAux, if_neg h10]
        have hrhs : natDec n = natDec (n / 10) ++ [Char.ofNat (48 + n % 10)] := by
          rw [h1, ih (n / 10) hdiv n _ hdiv]
        rw [hrhs, List.append_assoc]
        rfl

/-- One unfolding of the decimal printer. -/
theorem natDec_unfold (n : Nat) : natDec n =
    (if n < 10 then [Char.ofNat (48 + n)]
     else natDec (n / 10) ++ [Char.ofNat (48 + n % 10)]) := by
  by_cases h10 : n < 10
  · simp only [natDec, natDecAux, if_pos h10]
  · have hdiv : n / 10 < n := Nat.div_lt_self (by omega) (by omega)
    have h1 : natDec n = natDecAux n (n / 10) [Char.ofNat (48 + n % 10)] := by
      simp only [natDec, natDecAux, if_neg h10]
    rw [if_neg h10, h1, natDecAux_spec (n / 10) n _ hdiv]

theorem natDec_ne_nil (n : Nat) : natDec n ≠ [] := by
  rw [natDec_unfold]
  by_cases h10 : n < 10
  · simp [h10]
  · simp [h10]

theorem natDec_digits (n : Nat) : ∀ c ∈ natDec n, isAsciiDigit c = true := by
  induction n using Nat.strong_induction_on with
  | _ n ih =>
    intro c hc
    rw [natDec_unfold] at hc
    by_cases h10 : n < 10
    · rw [if_pos h10] at hc
      simp at hc
      subst hc
      exact isAsciiDigit_digitChar n h10
    · rw [if_neg h10] at hc
      have hdiv : n / 10 < n := Nat.div_lt_self (by omega) (by omega)
      rw [List.mem_append] at hc
      cases hc with
      | inl h => exact ih (n / 10) hdiv c h
      | inr h =>
        simp at h
        subst h
        exact isAsciiDigit_digitChar (n % 10) (Nat.mod_lt _ (by omega))

theorem decDigitsVal_concat (xs : List Char) (c : Char) :
    decDigitsVal (xs ++ [c]) = decDigitsVal xs * 10 + (c.toNat - 48) := by
  simp [decDigitsVal, List.foldl_append]

/-- The decimal printer and the digit-run evaluator are inverse. -/
theorem decDigitsVal_natDec (n : Nat) : decDigitsVal (natDec n) = n := by
  induction n using Nat.strong_induction_on with
  | _ n ih =>
    rw [natDec_unfold]
    by_cases h10 : n < 10
    · rw [if_pos h10]
      simp [decDigitsVal, toNat_digitChar n h10]
    · have hdiv : n / 10 < n := Nat.div_lt_self (by omega) (by omega)
      rw [if_neg h10, decDigitsVal_concat, ih (n / 10) hdiv,
        toNat_digitChar (n % 10) (Nat.mod_lt _ (by omega))]
      omega

theorem natDec_head_ne_zero (n : Nat) (h1 : 1 ≤ n) :
    ∀ c t, natDec n = c :: t → ¬(c = '0') := by
  induction n using Nat.strong_induction_on with
  | _ n ih =>
    intro c t hct hc0
    subst hc0
    rw [natDec_unfold] at hct
    by_cases h10 : n < 10
    · rw [if_pos h10] at hct
      have htn : (Char.ofNat (48 + n)).toNat = 48 + n := toNat_digitChar n h10
      rw [List.cons.injEq] at hct
      rw [hct.1] at htn
      have h48 : ('0' : Char).toNat = 48 := rfl
      rw [h48] at htn
      omega
    · have hdiv : n / 10 < n := Nat.div_lt_self (by omega) (by omega)
      rw [if_neg h10] at hct
      cases hh : natDec (n / 10) with
      | nil => exact natDec_ne_nil (n / 10) hh
      | cons c2 t2 =>
        rw [hh, List.cons_append, List.cons.injEq] at hct
        exact ih (n / 10) hdiv (by omega) c2 t2 hh hct.1

/-- Is the head a digit (the span continues)? -/
def headIsDigit : List Char → Bool
  | c :: _ => isAsciiDigit c
  | [] => false

theorem spanDigits_exact (ds : List Char) (rest : List Char)
    (hds : ∀ c ∈ ds, isAsciiDigit c = true) (hrest : headIsDigit rest = false) :
    spanDigits (ds ++ rest) = (ds, rest) := by
  induction ds with
  | nil =>
    cases rest with
    | nil => rfl
    | cons c r =>
      simp only [headIsDigit] at hrest
      simp [spanDigits, hrest]
  | cons c ds2 ih =>
    have hc : isAsciiDigit c = true := hds c (by simp)
    have ih2 := ih (fun x hx => hds x (by simp [hx]))
    simp [spanDigits, hc, ih2]

/-- No digit, dot, or exponent marker follows: a serialized integer ends
exactly here. -/
def numSafe : List Char → Bool
  | [] => true
  | c :: _ => !(isAsciiDigit c || c = '.' || c = 'e' || c = 'E')

theorem numSafe_headIsDigit (rest : List Char) (h : numSafe rest = true) :
    headIsDigit rest = false := by
  cases rest with
  | nil => rfl
  | cons c r =>
    simp only [numSafe, Bool.not_eq_true'] at h
    simp only [headIsDigit]
    simp only [Bool.or_eq_false_iff] at h
    exact h.1.1.1

theorem numSafe_numTail (rest : List Char) (h : numSafe rest = true) :
    numTail rest = false := by
  cases rest with
  | nil => rfl
  | cons c r =>
    simp only [numSafe, Bool.not_eq_true'] at h
    simp only [numTail]
    simp only [Bool.or_eq_false_iff] at h
    simp [h.1.1.2, h.1.2, h.2]

/-- Scanning a serialized natural number recovers it. -/
theorem scanNat_natDec (n : Nat) (rest : List Char) (h : numSafe rest = true) :
    scanNat (natDec n ++ rest) = .ok (n, rest) := by
  have htail := numSafe_numTail rest h
  by_cases h0 : n = 0
  · subst h0
    have : natDec 0 = ['0'] := rfl
    rw [this]
    simp [scanNat, htail]
  · cases hh : natDec n with
    | nil => exact absurd hh (natDec_ne_nil n)
    | cons c t =>
      have hc0 : ¬(c = '0') := natDec_head_ne_zero n (by omega) c t hh
      have hdigits : ∀ x ∈ c :: t, isAsciiDigit x = true := by
        rw [← hh]
        exact natDec_digits n
      have hspan : spanDigits ((c :: t) ++ rest) = (c :: t, rest) :=
        spanDigits_exact (c :: t) rest hdigits (numSafe_headIsDigit rest h)
      rw [List.cons_append] at hspan
      have hval : decDigitsVal (c :: t) = n := by rw [← hh, decDigitsVal_natDec]
      show scanNat (c :: (t ++ rest)) = Except.ok (n, rest)
      rw [scanNat, if_neg hc0, hspan]
      simp [htail, hval]

theorem hexCharVal_hexDigitChar (d : Nat) (h : d < 16) :
    hexCharVal (hexDigitChar d) = some d := by
  interval_cases d <;> decide

theorem char_toNat_valid (c : Char) :
    c.toNat < 55296 ∨ (57343 < c.toNat ∧ c.toNat < 1114112) := by
  have h := c.valid
  unfold UInt32.isValidChar at h
  rcases h with h | ⟨h1, h2⟩
  · left
    exact h
  · right
    exact ⟨h1, h2⟩

/-- Reading back four emitted hex digits recovers the value. -/
theorem readHex4_hex4Chars (n : Nat) (h : n < 65536) (rest : List Char) :
    readHex4 (hex4Chars n ++ rest) = some (n, rest) := by
  show readHex4 (hexDigitChar (n / 4096 % 16) :: hexDigitChar (n / 256 % 16) ::
    hexDigitChar (n / 16 % 16) :: hexDigitChar (n % 16) :: rest) = _
  rw [readHex4, hexCharVal_hexDigitChar (n / 4096 % 16) (Nat.mod_lt _ (by omega)),
    hexCharVal_hexDigitChar (n / 256 % 16) (Nat.mod_lt _ (by omega)),
    hexCharVal_hexDigitChar (n / 16 % 16) (Nat.mod_lt _ (by omega)),
    hexCharVal_hexDigitChar (n % 16) (Nat.mod_lt _ (by omega))]
  exact congrArg (fun k => some (k, rest)) (by omega)

/-- One scanner step on a `\u` escape, written out. -/
theorem scanStr_stepU (fuel : Nat) (acc rest1 : List Char) :
    scanStr (fuel + 1) acc (bsl :: 'u' :: rest1) =
      (match readHex4 rest1 with
       | none => .error .badInput
       | some (n, rest2) =>
         if 55296 ≤ n ∧ n < 56320 then
           match rest2 with
           | e1 :: e2 :: rest2a =>
             if e1 = bsl ∧ e2 = 'u' then
               match readHex4 rest2a with
               | some (n2, rest3) =>
                 if 56320 ≤ n2 ∧ n2 < 57344 then
                   scanStr fuel
                     (Char.ofNat (65536 + (n - 55296) * 1024 + (n2 - 56320)) :: acc) rest3
                 else scanStr fuel (Char.ofNat n :: acc) (e1 :: e2 :: rest2a)
               | none => scanStr fuel (Char.ofNat n :: acc) (e1 :: e2 :: rest2a)
             else scanStr fuel (Char.ofNat n :: acc) (e1 :: e2 :: rest2a)
           | short => scanStr fuel (Char.ofNat n :: acc) short
         else scanStr fuel (Char.ofNat n :: acc) rest2) := rfl

/-- The scanner falls through to the plain-character arm for anything that is
not a quote, a backslash, or a control character. -/
theorem scanStr_plain (fuel : Nat) (c : Char) (acc rest : List Char)
    (hq : ¬(c = qu)) (hb : ¬(c = bsl)) (hge : ¬(c.toNat < 32)) :
    scanStr (fuel + 1) acc (c :: rest) = scanStr fuel (c :: acc) rest := by
  conv_lhs => rw [scanStr.eq_def]
  dsimp only
  rw [if_neg hq, if_neg hb, if_neg hge]

/-- The scanner un-escapes each escaped character. -/
theorem scanStr_escChar (fuel : Nat) (c : Char) (acc rest : List Char) :
    scanStr (fuel + 1) acc (escChar c ++ rest) = scanStr fuel (c :: acc) rest := by
  have hval := char_toNat_valid c
  rw [escChar]
  by_cases h1 : c = qu
  · subst h1
    rw [if_pos rfl]
    rfl
  rw [if_neg h1]
  by_cases h2 : c = bsl
  · subst h2
    rw [if_pos rfl]
    rfl
  rw [if_neg h2]
  by_cases h3 : c.toNat = 8
  · rw [if_pos h3]
    show scanStr fuel (Char.ofNat 8 :: acc) rest = _
    rw [← h3, Char.ofNat_toNat]
  rw [if_neg h3]
  by_cases h4 : c.toNat = 12
  · rw [if_pos h4]
    show scanStr fuel (Char.ofNat 12 :: acc) rest = _
    rw [← h4, Char.ofNat_toNat]
  rw [if_neg h4]
  by_cases h5 : c = '\n'
  · subst h5
    rw [if_pos rfl]
    rfl
  rw [if_neg h5]
  by_cases h6 : c.toNat = 13
  · rw [if_pos h6]
    show scanStr fuel (Char.ofNat 13 :: acc) rest = _
    rw [← h6, Char.ofNat_toNat]
  rw [if_neg h6]
  by_cases h7 : c = '\t'
  · subst h7
    rw [if_pos rfl]
    rfl
  rw [if_neg h7]
  by_cases h8 : c.toNat < 32
  · rw [if_pos h8]
    show scanStr (fuel + 1) acc (bsl :: 'u' :: (hex4Chars c.toNat ++ rest)) = _
    rw [scanStr_stepU, readHex4_hex4Chars c.toNat (by omega) rest]
    dsimp only
    rw [if_neg (by omega : ¬(55296 ≤ c.toNat ∧ c.toNat < 56320)), Char.ofNat_toNat]
  rw [if_neg h8]
  by_cases h9 : c.toNat < 127
  · rw [if_pos h9]
    exact scanStr_plain fuel c acc rest h1 h2 h8
  rw [if_neg h9]
  by_cases h10 : c.toNat < 65536
  · rw [if_pos h10]
    show scanStr (fuel + 1) acc (bsl :: 'u' :: (hex4Chars c.toNat ++ rest)) = _
    rw [scanStr_stepU, readHex4_hex4Chars c.toNat (by omega) rest]
    dsimp only
    rw [if_neg (by omega : ¬(55296 ≤ c.toNat ∧ c.toNat < 56320)), Char.ofNat_toNat]
  rw [if_neg h10]
  have harr : (bsl :: 'u' :: hex4Chars (55296 + (c.toNat - 65536) / 1024) ++
      bsl :: 'u' :: hex4Chars (56320 + (c.toNat - 65536) % 1024)) ++ rest
      = bsl :: 'u' :: (hex4Chars (55296 + (c.toNat - 65536) / 1024) ++
        (bsl :: 'u' :: (hex4Chars (56320 + (c.toNat - 65536) % 1024) ++ rest))) := by
    simp [List.append_assoc]
  rw [harr, scanStr_stepU,
    readHex4_hex4Chars (55296 + (c.toNat - 65536) / 1024) (by omega)]
  dsimp only
  rw [if_pos (by omega : 55296 ≤ 55296 + (c.toNat - 65536) / 1024 ∧
      55296 + (c.toNat - 65536) / 1024 < 56320)]
  rw [if_pos (⟨rfl, rfl⟩ : bsl = bsl ∧ 'u' = 'u'),
    readHex4_hex4Chars (56320 + (c.toNat - 65536) % 1024) (by omega)]
  dsimp only
  rw [if_pos (by omega : 56320 ≤ 56320 + (c.toNat - 65536) % 1024 ∧
      56320 + (c.toNat - 65536) % 1024 < 57344)]
  have hcomb : 65536 + (55296 + (c.toNat - 65536) / 1024 - 55296) * 1024
      + (56320 + (c.toNat - 65536) % 1024 - 56320) = c.toNat := by omega
  rw [hcomb, Char.ofNat_toNat]

/-- Scanning an escaped character run stops at the closing quote and returns
exactly the original characters. -/
theorem scanStr_escRun : ∀ (cs : List Char) (fuel : Nat) (acc rest : List Char),
    cs.length < fuel →
    scanStr fuel acc (cs.flatMap escChar ++ (qu :: rest))
      = .ok (String.mk (acc.reverse ++ cs), rest)
  | [], fuel, acc, rest, hf => by
    cases fuel with
    | zero => omega
    | succ f =>
      show scanStr (f + 1) acc (qu :: rest) = _
      conv_lhs => rw [scanStr.eq_def]
      dsimp only
      rw [if_pos rfl]
      simp
  | c :: cs, fuel, acc, rest, hf => by
    cases fuel with
    | zero => omega
    | succ f =>
      rw [List.flatMap_cons, List.append_assoc, scanStr_escChar,
        scanStr_escRun cs f (c :: acc) rest (by simp at hf; omega)]
      simp

/-- The string codec round trip. -/
theorem scanStr_escString (s : String) (fuel : Nat) (rest : List Char)
    (hf : s.data.length < fuel) :
    scanStr fuel [] (escString s ++ (qu :: rest)) = .ok (s, rest) := by
  rw [escString, scanStr_escRun s.data fuel [] rest hf]
  rfl

theorem escChar_length_pos (c : Char) : 1 ≤ (escChar c).length := by
  rw [escChar]
  repeat' split
  all_goals simp [hex4Chars]

theorem length_le_flatMap_escChar (cs : List Char) :
    cs.length ≤ (cs.flatMap escChar).length := by
  induction cs with
  | nil => simp
  | cons c cs ih =>
    rw [List.flatMap_cons, List.length_append, List.length_cons]
    have := escChar_length_pos c
    omega

/-- Every serialized value starts with a non-whitespace ASCII character that
is none of the delimiters the surrounding parser branches on. -/
theorem dumpChars_head (d : JValue) (lv : Nat) :
    ∃ c t, dumpChars d lv = c :: t ∧ isJsonWs c = false ∧ c ≠ ']' ∧ c ≠ cbr ∧
      c.toNat ≠ 65279 := by
  cases d with
  | null => exact ⟨'n', _, rfl, by decide, by decide, by decide, by decide⟩
  | bool b =>
    cases b with
    | true => exact ⟨'t', _, rfl, by decide, by decide, by decide, by decide⟩
    | false => exact ⟨'f', _, rfl, by decide, by decide, by decide, by decide⟩
  | str s => exact ⟨qu, _, rfl, by decide, by decide, by decide, by decide⟩
  | arr items =>
    cases items with
    | nil => exact ⟨'[', _, rfl, by decide, by decide, by decide, by decide⟩
    | cons x xs => exact ⟨'[', _, rfl, by decide, by decide, by decide, by decide⟩
  | obj pairs =>
    cases pairs with
    | nil => exact ⟨obr, _, rfl, by decide, by decide, by decide, by decide⟩
    | cons p ps =>
      obtain ⟨k, v⟩ := p
      exact ⟨obr, _, rfl, by decide, by decide, by decide, by decide⟩
  | int n =>
    by_cases hn : n < 0
    · refine ⟨'-', natDec n.natAbs, ?_, by decide, by decide, by decide, by decide⟩
      simp [dumpChars, intDec, hn]
    · have h0 : natDec n.toNat ≠ [] := natDec_ne_nil n.toNat
      cases hh : natDec n.toNat with
      | nil => exact absurd hh h0
      | cons c t =>
        have hd : isAsciiDigit c = true := by
          have := natDec_digits n.toNat
          rw [hh] at this
          exact this c (by simp)
        have hb : 48 ≤ c.toNat ∧ c.toNat ≤ 57 := by simpa [isAsciiDigit] using hd
        refine ⟨c, t, ?_, ?_, ?_, ?_, ?_⟩
        · simp [dumpChars, intDec, hn, hh]
        · have h1 : ¬(c = ' ') := fun h => by subst h; exact absurd hd (by decide)
          have h2 : ¬(c = '\t') := fun h => by subst h; exact absurd hd (by decide)
          have h3 : ¬(c = '\n') := fun h => by subst h; exact absurd hd (by decide)
          have h4 : ¬(c.toNat = 13) := by omega
          simp [isJsonWs, h1, h2, h3, h4]
        · intro h
          subst h
          exact absurd hd (by decide)
        · intro h
          subst h
          exact absurd hd (by decide)
        · omega

/-- `dropWs` does not eat into a serialized value. -/
theorem dropWs_dump (d : JValue) (lv : Nat) (x : List Char) :
    dropWs (dumpChars d lv ++ x) = dumpChars d lv ++ x := by
  obtain ⟨c, t, hd, hws, _, _, _⟩ := dumpChars_head d lv
  rw [hd, List.cons_append]
  simp [dropWs, hws]

theorem parseVal_quote (fuel : Nat) (rest : List Char) :
    parseVal (fuel + 1) (qu :: rest) =
      (match scanStr (rest.length + 1) [] rest with
       | .ok (s, r) => .ok (.str s, r)
       | .error e => .error e) := rfl

theorem parseVal_lbrack (fuel : Nat) (rest : List Char) :
    parseVal (fuel + 1) ('[' :: rest) =
      (match dropWs rest with
       | c2 :: r2 =>
         if c2 = ']' then .ok (.arr [], r2)
         else
           match parseItems fuel (c2 :: r2) with
           | .ok (xs, r3) => .ok (.arr xs, r3)
           | .error e => .error e
       | [] => .error .badInput) := rfl

theorem parseVal_lbrace (fuel : Nat) (rest : List Char) :
    parseVal (fuel + 1) (obr :: rest) =
      (match dropWs rest with
       | c2 :: r2 =>
         if c2 = cbr then .ok (.obj [], r2)
         else
           match parseMembers fuel (c2 :: r2) with
           | .ok (ps, r3) => .ok (.obj (pyDict ps), r3)
           | .error e => .error e
       | [] => .error .badInput) := rfl

theorem parseVal_minus (fuel : Nat) (rest : List Char) :
    parseVal (fuel + 1) ('-' :: rest) =
      (match scanNat rest with
       | .ok (n, r) => .ok (.int (-(n : Int)), r)
       | .error e => .error e) := rfl

theorem parseVal_digit (fuel : Nat) (c : Char) (rest : List Char)
    (hd : isAsciiDigit c = true) :
    parseVal (fuel + 1) (c :: rest) =
      (match scanNat (c :: rest) with
       | .ok (n, r) => .ok (.int (n : Int), r)
       | .error e => .error e) := by
  have hq : ¬(c = qu) := fun h => by subst h; exact absurd hd (by decide)
  have hlb : ¬(c = '[') := fun h => by subst h; exact absurd hd (by decide)
  have hob : ¬(c = obr) := fun h => by subst h; exact absurd hd (by decide)
  have hn : ¬(c = 'n') := fun h => by subst h; exact absurd hd (by decide)
  have ht : ¬(c = 't') := fun h => by subst h; exact absurd hd (by decide)
  have hf : ¬(c = 'f') := fun h => by subst h; exact absurd hd (by decide)
  have hm : ¬(c = '-') := fun h => by subst h; exact absurd hd (by decide)
  conv_lhs => rw [parseVal.eq_def]
  dsimp only
  rw [if_neg hq, if_neg hlb, if_neg hob, if_neg hn, if_neg ht, if_neg hf, if_neg hm,
    if_pos hd]

theorem parseItems_succ (fuel : Nat) (cs : List Char) :
    parseItems (fuel + 1) cs =
      (match parseVal fuel cs with
       | .error e => .error e
       | .ok (v, r) =>
         match dropWs r with
         | ',' :: r2 =>
           match parseItems fuel (dropWs r2) with
           | .ok (xs, r3) => .ok (v :: xs, r3)
           | .error e => .error e
         | ']' :: r2 => .ok ([v], r2)
         | _ => .error .badInput) := rfl

theorem parseMembers_quote (fuel : Nat) (krest : List Char) :
    parseMembers (fuel + 1) (qu :: krest) =
      (match scanStr (krest.length + 1) [] krest with
       | .error e => .error e
       | .ok (k, r1) =>
         match dropWs r1 with
         | ':' :: r2 =>
           match parseVal fuel (dropWs r2) with
           | .error e => .error e
           | .ok (v, r3) =>
             match dropWs r3 with
             | ',' :: r4 =>
               match parseMembers fuel (dropWs r4) with
               | .ok (ps, r5) => .ok ((k, v) :: ps, r5)
               | .error e => .error e
             | c5 :: r4 => if c5 = cbr then .ok ([(k, v)], r4) else .error .badInput
             | [] => .error .badInput
         | _ => .error .badInput) := rfl

/-- A serialized string parses back (with the scanner fuel the parser passes). -/
theorem rt_str (s : String) (fuel lv : Nat) (rest : List Char) :
    parseVal (fuel + 1) (dumpChars (.str s) lv ++ rest) = .ok (.str s, rest) := by
  show parseVal (fuel + 1) (qu :: ((escString s ++ [qu]) ++ rest)) = _
  rw [List.append_assoc]
  have hfuel : s.data.length < (escString s ++ ([qu] ++ rest)).length + 1 := by
    have := length_le_flatMap_escChar s.data
    simp only [escString, List.length_append] at *
    omega
  rw [parseVal_quote]
  have : ([qu] ++ rest) = qu :: rest := rfl
  rw [this] at hfuel ⊢
  rw [scanStr_escString s _ rest hfuel]

/-- A serialized integer parses back when no digit-like character follows. -/
theorem rt_int (n : Int) (fuel lv : Nat) (rest : List Char) (hs : numSafe rest = true) :
    parseVal (fuel + 1) (dumpChars (.int n) lv ++ rest) = .ok (.int n, rest) := by
  by_cases hn : n < 0
  · have hd : dumpChars (.int n) lv = '-' :: natDec n.natAbs := by
      simp [dumpChars, intDec, hn]
    rw [hd, List.cons_append, parseVal_minus, scanNat_natDec n.natAbs rest hs]
    have hid : -(n.natAbs : Int) = n := by omega
    dsimp only
    rw [hid]
  · have hd : dumpChars (.int n) lv = natDec n.toNat := by
      simp [dumpChars, intDec, hn]
    rw [hd]
    cases hh : natDec n.toNat with
    | nil => exact absurd hh (natDec_ne_nil n.toNat)
    | cons c t =>
      have hdig : isAsciiDigit c = true := by
        have := natDec_digits n.toNat
        rw [hh] at this
        exact this c (by simp)
      rw [List.cons_append, parseVal_digit fuel c (t ++ rest) hdig, ← List.cons_append,
        ← hh, scanNat_natDec n.toNat rest hs]
      have hid : (n.toNat : Int) = n := by omega
      dsimp only
      rw [hid]

theorem containsKey_append (a b : List (String × JValue)) (k : String) :
    containsKey (a ++ b) k = (containsKey a k || containsKey b k) := by
  induction a with
  | nil => simp [containsKey, dictGet]
  | cons p rest ih =>
    obtain ⟨k2, v⟩ := p
    by_cases h : k2 = k
    · simp [containsKey, dictGet, h]
    · simp only [List.cons_append, containsKey, dictGet, if_neg h]
      exact ih

theorem dictSet_absent (acc : List (String × JValue)) (k : String) (v : JValue)
    (h : containsKey acc k = false) : dictSet acc k v = acc ++ [(k, v)] := by
  simp [dictSet, h]

theorem pyDict_aux (ps : List (String × JValue)) :
    ∀ acc : List (String × JValue),
    distinctKeys (ps.map Prod.fst) = true →
    (∀ p ∈ ps, containsKey acc p.1 = false) →
    ps.foldl (fun acc p => dictSet acc p.1 p.2) acc = acc ++ ps := by
  induction ps with
  | nil => intro acc _ _; simp
  | cons p rest ih =>
    intro acc hdist habs
    obtain ⟨k, v⟩ := p
    simp only [List.map_cons, distinctKeys, Bool.and_eq_true, Bool.not_eq_true'] at hdist
    rw [List.foldl_cons]
    rw [dictSet_absent acc k v (habs (k, v) (by simp))]
    rw [ih (acc ++ [(k, v)]) hdist.2 ?_]
    · simp
    · intro p2 hp2
      rw [containsKey_append, habs p2 (by simp [hp2]), Bool.false_or]
      have hne : ¬(k = p2.1) := by
        intro heq
        have hmem : p2.1 ∈ rest.map Prod.fst := List.mem_map_of_mem Prod.fst hp2
        rw [← heq] at hmem
        have h3 : (rest.map Prod.fst).elem k = false := hdist.1
        rw [List.elem_eq_true_of_mem hmem] at h3
        exact Bool.noConfusion h3
      simp [containsKey, dictGet, hne]

/-- `dict(pairs)` is the identity on a distinct-key pair list. -/
theorem pyDict_noDup (ps : List (String × JValue))
    (h : distinctKeys (ps.map Prod.fst) = true) : pyDict ps = ps := by
  rw [pyDict, pyDict_aux ps [] h (fun p _ => rfl)]
  simp

mutual
theorem fuelNeed_le : ∀ (d : JValue) (lv : Nat), fuelNeed d ≤ (dumpChars d lv).length + 1
  | .null, lv => by
    show (1 : Nat) ≤ (dumpChars .null lv).length + 1
    omega
  | .bool b, lv => by
    show (1 : Nat) ≤ (dumpChars (.bool b) lv).length + 1
    omega
  | .int n, lv => by
    show (1 : Nat) ≤ (dumpChars (.int n) lv).length + 1
    omega
  | .str s, lv => by
    show (1 : Nat) ≤ (dumpChars (.str s) lv).length + 1
    omega
  | .arr [], lv => by
    show (1 : Nat) ≤ (dumpChars (.arr []) lv).length + 1
    omega
  | .arr (x :: xs), lv => by
    have hi := fuelNeedItems_le (x :: xs) (lv + 1)
    show 1 + fuelNeedItems (x :: xs) ≤ (dumpChars (.arr (x :: xs)) lv).length + 1
    have hlen : (dumpChars (.arr (x :: xs)) lv).length
        = (dumpItems (x :: xs) (lv + 1)).length + (4 * lv + 4) := by
      simp only [dumpChars, List.length_cons, List.length_append, indentSp,
        List.length_replicate, List.length_nil]
      all_goals omega
    omega
  | .obj [], lv => by
    show (1 : Nat) ≤ (dumpChars (.obj []) lv).length + 1
    omega
  | .obj (p :: ps), lv => by
    have hi := fuelNeedPairs_le (p :: ps) (lv + 1)
    show 1 + fuelNeedPairs (p :: ps) ≤ (dumpChars (.obj (p :: ps)) lv).length + 1
    have hlen : (dumpChars (.obj (p :: ps)) lv).length
        = (dumpPairs (p :: ps) (lv + 1)).length + (4 * lv + 4) := by
      simp only [dumpChars, List.length_cons, List.length_append, indentSp,
        List.length_replicate, List.length_nil]
      all_goals omega
    omega

theorem fuelNeedItems_le : ∀ (xs : List JValue) (lv : Nat),
    fuelNeedItems xs ≤ (dumpItems xs lv).length + 2
  | [], lv => by
    show (1 : Nat) ≤ (dumpItems [] lv).length + 2
    omega
  | [x], lv => by
    have hx := fuelNeed_le x lv
    have h1 : fuelNeedItems ([] : List JValue) = 1 := rfl
    show 1 + max (fuelNeed x) (fuelNeedItems []) ≤ (dumpItems [x] lv).length + 2
    have hlen : (dumpItems [x] lv).length = 4 * lv + (dumpChars x lv).length := by
      simp only [dumpItems, List.length_cons, List.length_append, indentSp,
        List.length_replicate, List.length_nil]
      all_goals omega
    have hm : max (fuelNeed x) (fuelNeedItems ([] : List JValue))
        ≤ (dumpChars x lv).length + 1 :=
      Nat.max_le.mpr (And.intro hx (by omega))
    omega
  | x :: y :: ys, lv => by
    have hx := fuelNeed_le x lv
    have hys := fuelNeedItems_le (y :: ys) lv
    show 1 + max (fuelNeed x) (fuelNeedItems (y :: ys))
      ≤ (dumpItems (x :: y :: ys) lv).length + 2
    have hlen : (dumpItems (x :: y :: ys) lv).length
        = 4 * lv + (dumpChars x lv).length + 2 + (dumpItems (y :: ys) lv).length := by
      simp only [dumpItems, List.length_cons, List.length_append, indentSp,
        List.length_replicate, List.length_nil]
      all_goals omega
    have hm : max (fuelNeed x) (fuelNeedItems (y :: ys))
        ≤ (dumpChars x lv).length + (dumpItems (y :: ys) lv).length + 2 :=
      Nat.max_le.mpr (And.intro (by omega) (by omega))
    omega

theorem fuelNeedPairs_le : ∀ (ps : List (String × JValue)) (lv : Nat),
    fuelNeedPairs ps ≤ (dumpPairs ps lv).length + 2
  | [], lv => by
    show (1 : Nat) ≤ (dumpPairs [] lv).length + 2
    omega
  | [(k, v)], lv => by
    have hv := fuelNeed_le v lv
    have h1 : fuelNeedPairs ([] : List (String × JValue)) = 1 := rfl
    show 1 + max (fuelNeed v) (fuelNeedPairs []) ≤ (dumpPairs [(k, v)] lv).length + 2
    have hlen : (dumpPairs [(k, v)] lv).length
        = 4 * lv + (escString k).length + 4 + (dumpChars v lv).length := by
      simp only [dumpPairs, List.length_cons, List.length_append, indentSp,
        List.length_replicate, List.length_nil]
      all_goals omega
    have hm : max (fuelNeed v) (fuelNeedPairs ([] : List (String × JValue)))
        ≤ (dumpChars v lv).length + 1 :=
      Nat.max_le.mpr (And.intro hv (by omega))
    omega
  | (k, v) :: q :: ps, lv => by
    have hv := fuelNeed_le v lv
    have hps := fuelNeedPairs_le (q :: ps) lv
    show 1 + max (fuelNeed v) (fuelNeedPairs (q :: ps))
      ≤ (dumpPairs ((k, v) :: q :: ps) lv).length + 2
    have hlen : (dumpPairs ((k, v) :: q :: ps) lv).length
        = 4 * lv + (escString k).length + 4 + (dumpChars v lv).length + 2
          + (dumpPairs (q :: ps) lv).length := by
      simp only [dumpPairs, List.length_cons, List.length_append, indentSp,
        List.length_replicate, List.length_nil]
      all_goals omega
    have hm : max (fuelNeed v) (fuelNeedPairs (q :: ps))
        ≤ (dumpChars v lv).length + (dumpPairs (q :: ps) lv).length + 2 :=
      Nat.max_le.mpr (And.intro (by omega) (by omega))
    omega
end

theorem dropWs_comma (x : List Char) : dropWs (',' :: x) = ',' :: x := rfl

theorem dropWs_colon (x : List Char) : dropWs (':' :: x) = ':' :: x := rfl

theorem dropWs_space (x : List Char) : dropWs (' ' :: x) = dropWs x := rfl

theorem dropWs_quote (x : List Char) : dropWs (qu :: x) = qu :: x := rfl

theorem numSafe_nl (x : List Char) : numSafe ('\n' :: x) = true := rfl

theorem numSafe_comma (x : List Char) : numSafe (',' :: x) = true := rfl

theorem key_fuel_ok (k : String) (tail : List Char) :
    k.data.length < (escString k ++ (qu :: tail)).length + 1 := by
  have := length_le_flatMap_escChar k.data
  simp only [escString, List.length_append, List.length_cons]
  omega

mutual
/-- A serialized value followed by a non-digit-like tail parses back to itself,
given enough fuel and Python-dict-representable (duplicate-free) objects. -/
theorem rt_val : ∀ (d : JValue) (lv fuel : Nat) (rest : List Char),
    fuelNeed d ≤ fuel → noDupKeys d = true → numSafe rest = true →
    parseVal fuel (dumpChars d lv ++ rest) = .ok (d, rest)
  | .null, lv, fuel, rest, hfuel, _, _ => by
    cases fuel with
    | zero =>
      have h0 : (1 : Nat) ≤ 0 := hfuel
      exact absurd h0 (by decide)
    | succ f => rfl
  | .bool true, lv, fuel, rest, hfuel, _, _ => by
    cases fuel with
    | zero =>
      have h0 : (1 : Nat) ≤ 0 := hfuel
      exact absurd h0 (by decide)
    | succ f => rfl
  | .bool false, lv, fuel, rest, hfuel, _, _ => by
    cases fuel with
    | zero =>
      have h0 : (1 : Nat) ≤ 0 := hfuel
      exact absurd h0 (by decide)
    | succ f => rfl
  | .int n, lv, fuel, rest, hfuel, _, hsafe => by
    cases fuel with
    | zero =>
      have h0 : (1 : Nat) ≤ 0 := hfuel
      exact absurd h0 (by decide)
    | succ f => exact rt_int n f lv rest hsafe
  | .str s, lv, fuel, rest, hfuel, _, _ => by
    cases fuel with
    | zero =>
      have h0 : (1 : Nat) ≤ 0 := hfuel
      exact absurd h0 (by decide)
    | succ f => exact rt_str s f lv rest
  | .arr [], lv, fuel, rest, hfuel, _, _ => by
    cases fuel with
    | zero =>
      have h0 : (1 : Nat) ≤ 0 := hfuel
      exact absurd h0 (by decide)
    | succ f => rfl
  | .arr (x :: xs), lv, fuel, rest, hfuel, hdup, _ => by
    cases fuel with
    | zero =>
      have h0 : 1 + fuelNeedItems (x :: xs) ≤ 0 := hfuel
      omega
    | succ f =>
      have hneed : fuelNeedItems (x :: xs) ≤ f := by
        have h1 : 1 + fuelNeedItems (x :: xs) ≤ f + 1 := hfuel
        omega
      have hdup2 : noDupItems (x :: xs) = true := hdup
      have harr : dumpChars (.arr (x :: xs)) lv ++ rest
          = '[' :: ('\n' :: (dumpItems (x :: xs) (lv + 1) ++
              ('\n' :: (indentSp lv ++ (']' :: rest))))) := by
        simp only [dumpChars, List.cons_append, List.append_assoc, List.nil_append]
      rw [harr, parseVal_lbrack]
      have hdw : dropWs (dumpItems (x :: xs) (lv + 1) ++
            ('\n' :: (indentSp lv ++ (']' :: rest))))
          = dumpChars x (lv + 1) ++ (itemsTail xs (lv + 1) ++
              ('\n' :: (indentSp lv ++ (']' :: rest)))) := by
        rw [dumpItems_eq, List.append_assoc, dropWs_indent, List.append_assoc,
          dropWs_dump]
      rw [dropWs_nl, hdw]
      obtain ⟨cx, tx, hx, _, hxbr, _, _⟩ := dumpChars_head x (lv + 1)
      rw [hx, List.cons_append]
      dsimp only
      rw [if_neg hxbr, ← List.cons_append, ← hx]
      rw [rt_items x xs (lv + 1) lv f rest hneed hdup2]
  | .obj [], lv, fuel, rest, hfuel, _, _ => by
    cases fuel with
    | zero =>
      have h0 : (1 : Nat) ≤ 0 := hfuel
      exact absurd h0 (by decide)
    | succ f => rfl
  | .obj ((k, v) :: ps), lv, fuel, rest, hfuel, hdup, _ => by
    cases fuel with
    | zero =>
      have h0 : 1 + fuelNeedPairs ((k, v) :: ps) ≤ 0 := hfuel
      omega
    | succ f =>
      have hneed : fuelNeedPairs ((k, v) :: ps) ≤ f := by
        have h1 : 1 + fuelNeedPairs ((k, v) :: ps) ≤ f + 1 := hfuel
        omega
      have hdup0 : (distinctKeys (((k, v) :: ps).map Prod.fst)
          && noDupPairs ((k, v) :: ps)) = true := hdup
      rw [Bool.and_eq_true] at hdup0
      have hobj : dumpChars (.obj ((k, v) :: ps)) lv ++ rest
          = obr :: ('\n' :: (dumpPairs ((k, v) :: ps) (lv + 1) ++
              ('\n' :: (indentSp lv ++ (cbr :: rest))))) := by
        simp only [dumpChars, List.cons_append, List.append_assoc, List.nil_append]
      rw [hobj, parseVal_lbrace]
      have hdw : dropWs (dumpPairs ((k, v) :: ps) (lv + 1) ++
            ('\n' :: (indentSp lv ++ (cbr :: rest))))
          = qu :: (escString k ++ (qu :: ':' :: ' ' :: (dumpChars v (lv + 1) ++
              (pairsTail ps (lv + 1) ++ ('\n' :: (indentSp lv ++ (cbr :: rest))))))) := by
        rw [dumpPairs_eq, List.append_assoc, dropWs_indent]
        rw [List.cons_append, dropWs_quote]
        simp only [List.append_assoc, List.cons_append]
      rw [dropWs_nl, hdw]
      dsimp only
      rw [if_neg (by decide : ¬(qu = cbr))]
      rw [rt_pairs k v ps (lv + 1) lv f rest hneed hdup0.2]
      dsimp only
      rw [pyDict_noDup _ hdup0.1]
termination_by d lv fuel rest hfuel hdup hsafe => sizeOf d
decreasing_by
  all_goals simp_wf
  all_goals omega

/-- The items of a serialized non-empty array parse back. -/
theorem rt_items : ∀ (x : JValue) (xs : List JValue) (lv lv2 fuel : Nat)
    (rest : List Char),
    fuelNeedItems (x :: xs) ≤ fuel → noDupItems (x :: xs) = true →
    parseItems fuel
      (dumpChars x lv ++ (itemsTail xs lv ++ ('\n' :: (indentSp lv2 ++ (']' :: rest)))))
      = .ok (x :: xs, rest)
  | x, [], lv, lv2, fuel, rest, hfuel, hdup => by
    cases fuel with
    | zero =>
      have h0 : 1 + max (fuelNeed x) (fuelNeedItems []) ≤ 0 := hfuel
      omega
    | succ f =>
      have h1 : 1 + max (fuelNeed x) (fuelNeedItems []) ≤ f + 1 := hfuel
      have hmx : max (fuelNeed x) (fuelNeedItems []) ≤ f := by omega
      have hx := Nat.max_le.mp hmx
      have hd0 : (noDupKeys x && noDupItems []) = true := hdup
      rw [Bool.and_eq_true] at hd0
      rw [parseItems_succ]
      have hv := rt_val x lv f ('\n' :: (indentSp lv2 ++ (']' :: rest)))
        hx.1 hd0.1 (numSafe_nl _)
      rw [show itemsTail ([] : List JValue) lv ++
            ('\n' :: (indentSp lv2 ++ (']' :: rest)))
          = '\n' :: (indentSp lv2 ++ (']' :: rest)) from rfl]
      rw [hv]
      show ((match dropWs ('\n' :: (indentSp lv2 ++ (']' :: rest))) with
        | ',' :: r2 =>
          match parseItems f (dropWs r2) with
          | .ok (xs, r3) => .ok (x :: xs, r3)
          | .error e => .error e
        | ']' :: r2 => .ok ([x], r2)
        | _ => .error .badInput) : Except PErr (List JValue × List Char))
        = .ok ([x], rest)
      rw [dropWs_nl, dropWs_indent]
      rfl
  | x, y :: ys, lv, lv2, fuel, rest, hfuel, hdup => by
    cases fuel with
    | zero =>
      have h0 : 1 + max (fuelNeed x) (fuelNeedItems (y :: ys)) ≤ 0 := hfuel
      omega
    | succ f =>
      have h1 : 1 + max (fuelNeed x) (fuelNeedItems (y :: ys)) ≤ f + 1 := hfuel
      have hmx : max (fuelNeed x) (fuelNeedItems (y :: ys)) ≤ f := by omega
      have hx := Nat.max_le.mp hmx
      have hd0 : (noDupKeys x && noDupItems (y :: ys)) = true := hdup
      rw [Bool.and_eq_true] at hd0
      rw [parseItems_succ]
      have hshape : itemsTail (y :: ys) lv ++ ('\n' :: (indentSp lv2 ++ (']' :: rest)))
          = ',' :: ('\n' :: (indentSp lv ++ (dumpChars y lv ++ (itemsTail ys lv ++
              ('\n' :: (indentSp lv2 ++ (']' :: rest))))))) := by
        simp only [itemsTail, List.cons_append, List.append_assoc]
      rw [hshape]
      have hv := rt_val x lv f
        (',' :: ('\n' :: (indentSp lv ++ (dumpChars y lv ++ (itemsTail ys lv ++
          ('\n' :: (indentSp lv2 ++ (']' :: rest))))))))
        hx.1 hd0.1 (numSafe_comma _)
      rw [hv]
      show ((match parseItems f (dropWs ('\n' :: (indentSp lv ++ (dumpChars y lv ++
            (itemsTail ys lv ++ ('\n' :: (indentSp lv2 ++ (']' :: rest)))))))) with
        | .ok (xs, r3) => .ok (x :: xs, r3)
        | .error e => .error e) : Except PErr (List JValue × List Char))
        = .ok (x :: y :: ys, rest)
      rw [dropWs_nl, dropWs_indent, dropWs_dump]
      rw [rt_items y ys lv lv2 f rest hx.2 hd0.2]
termination_by x xs lv lv2 fuel rest hfuel hdup => 1 + sizeOf x + sizeOf xs
decreasing_by
  all_goals simp_wf
  all_goals omega

/-- The members of a serialized non-empty object parse back. -/
theorem rt_pairs : ∀ (k : String) (v : JValue) (ps : List (String × JValue))
    (lv lv2 fuel : Nat) (rest : List Char),
    fuelNeedPairs ((k, v) :: ps) ≤ fuel → noDupPairs ((k, v) :: ps) = true →
    parseMembers fuel
      (qu :: (escString k ++ (qu :: ':' :: ' ' :: (dumpChars v lv ++
        (pairsTail ps lv ++ ('\n' :: (indentSp lv2 ++ (cbr :: rest))))))))
      = .ok ((k, v) :: ps, rest)
  | k, v, [], lv, lv2, fuel, rest, hfuel, hdup => by
    cases fuel with
    | zero =>
      have h0 : 1 + max (fuelNeed v) (fuelNeedPairs []) ≤ 0 := hfuel
      omega
    | succ f =>
      have h1 : 1 + max (fuelNeed v) (fuelNeedPairs []) ≤ f + 1 := hfuel
      have hmx : max (fuelNeed v) (fuelNeedPairs []) ≤ f := by omega
      have hx := Nat.max_le.mp hmx
      have hd0 : (noDupKeys v && noDupPairs []) = true := hdup
      rw [Bool.and_eq_true] at hd0
      rw [show pairsTail ([] : List (String × JValue)) lv ++
            ('\n' :: (indentSp lv2 ++ (cbr :: rest)))
          = '\n' :: (indentSp lv2 ++ (cbr :: rest)) from rfl]
      rw [parseMembers_quote]
      rw [scanStr_escString k _ _ (key_fuel_ok k _)]
      show ((match parseVal f (dropWs (dumpChars v lv ++
            ('\n' :: (indentSp lv2 ++ (cbr :: rest))))) with
        | .error e => .error e
        | .ok (w, r3) =>
          match dropWs r3 with
          | ',' :: r4 =>
            match parseMembers f (dropWs r4) with
            | .ok (qs, r5) => .ok ((k, w) :: qs, r5)
            | .error e => .error e
          | c5 :: r4 => if c5 = cbr then .ok ([(k, w)], r4) else .error .badInput
          | [] => .error .badInput) : Except PErr (List (String × JValue) × List Char))
        = .ok ([(k, v)], rest)
      rw [dropWs_dump]
      have hv := rt_val v lv f ('\n' :: (indentSp lv2 ++ (cbr :: rest)))
        hx.1 hd0.1 (numSafe_nl _)
      rw [hv]
      show ((match dropWs ('\n' :: (indentSp lv2 ++ (cbr :: rest))) with
        | ',' :: r4 =>
          match parseMembers f (dropWs r4) with
          | .ok (qs, r5) => .ok ((k, v) :: qs, r5)
          | .error e => .error e
        | c5 :: r4 => if c5 = cbr then .ok ([(k, v)], r4) else .error .badInput
        | [] => .error .badInput) : Except PErr (List (String × JValue) × List Char))
        = .ok ([(k, v)], rest)
      rw [dropWs_nl, dropWs_indent]
      rfl
  | k, v, (k2, v2) :: ps2, lv, lv2, fuel, rest, hfuel, hdup => by
    cases fuel with
    | zero =>
      have h0 : 1 + max (fuelNeed v) (fuelNeedPairs ((k2, v2) :: ps2)) ≤ 0 := hfuel
      omega
    | succ f =>
      have h1 : 1 + max (fuelNeed v) (fuelNeedPairs ((k2, v2) :: ps2)) ≤ f + 1 := hfuel
      have hmx : max (fuelNeed v) (fuelNeedPairs ((k2, v2) :: ps2)) ≤ f := by omega
      have hx := Nat.max_le.mp hmx
      have hd0 : (noDupKeys v && noDupPairs ((k2, v2) :: ps2)) = true := hdup
      rw [Bool.and_eq_true] at hd0
      have hshape : pairsTail ((k2, v2) :: ps2) lv ++
            ('\n' :: (indentSp lv2 ++ (cbr :: rest)))
          = ',' :: ('\n' :: (indentSp lv ++ (qu :: (escString k2 ++ (qu :: ':' :: ' ' ::
              (dumpChars v2 lv ++ (pairsTail ps2 lv ++
                ('\n' :: (indentSp lv2 ++ (cbr :: rest)))))))))) := by
        simp only [pairsTail, List.cons_append, List.append_assoc]
      rw [hshape]
      rw [parseMembers_quote]
      rw [scanStr_escString k _ _ (key_fuel_ok k _)]
      show ((match parseVal f (dropWs (dumpChars v lv ++
            (',' :: ('\n' :: (indentSp lv ++ (qu :: (escString k2 ++ (qu :: ':' :: ' ' ::
              (dumpChars v2 lv ++ (pairsTail ps2 lv ++
                ('\n' :: (indentSp lv2 ++ (cbr :: rest))))))))))))) with
        | .error e => .error e
        | .ok (w, r3) =>
          match dropWs r3 with
          | ',' :: r4 =>
            match parseMembers f (dropWs r4) with
            | .ok (qs, r5) => .ok ((k, w) :: qs, r5)
            | .error e => .error e
          | c5 :: r4 => if c5 = cbr then .ok ([(k, w)], r4) else .error .badInput
          | [] => .error .badInput) : Except PErr (List (String × JValue) × List Char))
        = .ok ((k, v) :: (k2, v2) :: ps2, rest)
      rw [dropWs_dump]
      have hv := rt_val v lv f
        (',' :: ('\n' :: (indentSp lv ++ (qu :: (escString k2 ++ (qu :: ':' :: ' ' ::
          (dumpChars v2 lv ++ (pairsTail ps2 lv ++
            ('\n' :: (indentSp lv2 ++ (cbr :: rest)))))))))))
        hx.1 hd0.1 (numSafe_comma _)
      rw [hv]
      show ((match parseMembers f (dropWs ('\n' :: (indentSp lv ++ (qu :: (escString k2 ++
            (qu :: ':' :: ' ' :: (dumpChars v2 lv ++ (pairsTail ps2 lv ++
              ('\n' :: (indentSp lv2 ++ (cbr :: rest))))))))))) with
        | .ok (qs, r5) => .ok ((k, v) :: qs, r5)
        | .error e => .error e) : Except PErr (List (String × JValue) × List Char))
        = .ok ((k, v) :: (k2, v2) :: ps2, rest)
      rw [dropWs_nl, dropWs_indent, dropWs_quote]
      rw [rt_pairs k2 v2 ps2 lv lv2 f rest hx.2 hd0.2]
termination_by k v ps lv lv2 fuel rest hfuel hdup => 1 + sizeOf v + sizeOf ps
decreasing_by
  all_goals simp_wf
  all_goals omega
end

/-- C4: round-trip fixed point - `parse (serialize d)` returns exactly `d`
(same keys, order, nesting and scalar types) for every document `d` that is
representable as Python data, i.e. whose mappings have pairwise-distinct keys
(a Python `dict` cannot hold duplicates, so every in-memory document
satisfies the hypothesis). -/
theorem c4_round_trip (d : JValue) (h : noDupKeys d = true) :
    json_load (json_dump d) = .ok d := by
  obtain ⟨c, t, hd, hws, _, _, hbom⟩ := dumpChars_head d 0
  have hsb : stripBom (dumpChars d 0) = dumpChars d 0 := by
    rw [hd]
    simp [stripBom, hbom]
  have hdw : dropWs (dumpChars d 0) = dumpChars d 0 := by
    have h2 := dropWs_dump d 0 []
    rwa [List.append_nil] at h2
  have hv := rt_val d 0 ((dumpChars d 0).length + 1) [] (fuelNeed_le d 0) h rfl
  rw [List.append_nil] at hv
  show ((match parseVal ((stripBom (dumpChars d 0)).length + 1)
        (dropWs (stripBom (dumpChars d 0))) with
    | .error e => .error e
    | .ok (v, r) => if (dropWs r).isEmpty then .ok v else .error .trailing)
    : Except PErr JValue)
    = .ok d
  rw [hsb, hdw, hv]
  rfl

/-- C4 witness: the demo document survives the save/load round trip intact. -/
theorem c4_round_trip_witness :
    noDupKeys docDemo = true ∧ json_load (json_dump docDemo) = .ok docDemo :=
  ⟨rfl, c4_round_trip docDemo rfl⟩

/-- C8 witness: a concrete session around a failed save of `docRows`. -/
theorem c8_save_failure_preserves_memory_witness :
    (save_bim_file false none
      { bim_data := docRows, file_path := some "m.bim", disk := none }).2
        = .saveError ∧
    (save_bim_file false none
      { bim_data := docRows, file_path := some "m.bim", disk := none }).1.bim_data
        = docRows ∧
    (save_bim_file true none (commitEdit ["tables", "0", "rows"] "7"
      (save_bim_file false none
        { bim_data := docRows, file_path := some "m.bim", disk := none }).1)).1.disk
      = some (json_dump (docAfter docRows ["tables", "0", "rows"] "7")) := by
  have h := c8_save_failure_preserves_memory
    { bim_data := docRows, file_path := some "m.bim", disk := none } "m.bim" rfl
    none ["tables", "0", "rows"] "7"
  exact ⟨h.1, h.2.1, h.2.2.2.2⟩

end Aurora
